import Mathlib

/-!
Verification of the text decomposition and inline-markup editing engine of
the Text-Cut card application.

The development shallowly embeds the three core components:

* the run-length inline-bold markup model of `src/components/Card.tsx`
  (`buildSegments`, `buildIndexMap`, `plainIndexToTextIndex`,
  `updateSegmentsBold`, `renderSegments`, `toggleBoldAtSelection`);
* the deterministic fallback segmenter of `src/services/geminiService.ts`
  (the catch-branch of `splitTextIntoCards`);
* the overflow resplitter `handleSplitCard` of `src/components/Card.tsx`.

Strings are embedded as `List Char` (JavaScript `.length` counts UTF-16
units; for the BMP characters used throughout this development the two
coincide).  JavaScript loops that push to the end of an array are embedded
as recursions over a reversed accumulator that is reversed once at the end.
`Math.floor(n * 0.7)` is embedded as `7 * n / 10`; for the small operand
sizes appearing in every statement below the double rounding of `0.7`
never changes the floor.
-/

namespace TextCut

/-- A run of text with one boldness value (`TextSegment` in Card.tsx). -/
structure TextSegment where
  text : List Char
  bold : Bool
deriving DecidableEq

/-- The shared push helper of `buildSegments`/`updateSegmentsBold`: skip
empty text, merge with the most recent run when the boldness matches.
The accumulator is kept in reverse order. -/
def pushSeg (acc : List TextSegment) (text : List Char) (bold : Bool) : List TextSegment :=
  if text = [] then acc
  else
    match acc with
    | [] => [⟨text, bold⟩]
    | last :: rest =>
      if last.bold = bold then ⟨last.text ++ text, bold⟩ :: rest
      else ⟨text, bold⟩ :: last :: rest

/-- The scanning loop of `buildSegments`: a leading `**` flips the bold
flag and flushes the buffer, any other character extends the buffer. -/
def buildSegmentsGo : List Char → Bool → List Char → List TextSegment → List TextSegment
  | '*' :: '*' :: rest, bold, buffer, acc => buildSegmentsGo rest (!bold) [] (pushSeg acc buffer bold)
  | c :: rest, bold, buffer, acc => buildSegmentsGo rest bold (buffer ++ [c]) acc
  | [], bold, buffer, acc => (pushSeg acc buffer bold).reverse

/-- `buildSegments` of Card.tsx: parse raw text into coalesced bold runs. -/
def buildSegments (text : List Char) : List TextSegment :=
  buildSegmentsGo text false [] []

/-- The loop of `buildIndexMap`, carrying the running plain index. -/
def buildIndexMapGo : List Char → Nat → List Nat
  | '*' :: '*' :: rest, plainIndex => plainIndex :: plainIndex :: buildIndexMapGo rest plainIndex
  | _ :: rest, plainIndex => plainIndex :: buildIndexMapGo rest (plainIndex + 1)
  | [], plainIndex => [plainIndex]

/-- `buildIndexMap` of Card.tsx: entry `i` is the logical (marker-stripped)
offset of storage offset `i`; the list has length `text.length + 1`. -/
def buildIndexMap (text : List Char) : List Nat :=
  buildIndexMapGo text 0

/-- The loop of `plainIndexToTextIndex`, carrying the running plain count
and storage position. -/
def plainIndexToTextIndexGo : List Char → Nat → Nat → Nat → Nat
  | '*' :: '*' :: rest, plainIndex, count, i => plainIndexToTextIndexGo rest plainIndex count (i + 2)
  | _ :: rest, plainIndex, count, i =>
    if count = plainIndex then i else plainIndexToTextIndexGo rest plainIndex (count + 1) (i + 1)
  | [], _, _, i => i

/-- `plainIndexToTextIndex` of Card.tsx: the storage offset of the given
logical offset, skipping any `**` markers first; falls through to the
storage length. -/
def plainIndexToTextIndex (text : List Char) (plainIndex : Nat) : Nat :=
  plainIndexToTextIndexGo text plainIndex 0 0

/-- The loop of `updateSegmentsBold` over the runs, carrying the plain
offset of the current run and the reversed output accumulator. -/
def updateSegmentsBoldGo : List TextSegment → Nat → Nat → Bool → Nat → List TextSegment → List TextSegment
  | [], _, _, _, _, acc => acc.reverse
  | seg :: rest, start, finish, boldValue, offset, acc =>
    let segStart := offset
    let segEnd := offset + seg.text.length
    if segEnd ≤ start ∨ segStart ≥ finish then
      updateSegmentsBoldGo rest start finish boldValue segEnd (pushSeg acc seg.text seg.bold)
    else
      let overlapStart := max start segStart
      let overlapEnd := min finish segEnd
      let acc1 := if segStart < overlapStart then
          pushSeg acc (seg.text.take (overlapStart - segStart)) seg.bold
        else acc
      let acc2 := pushSeg acc1 ((seg.text.drop (overlapStart - segStart)).take (overlapEnd - overlapStart)) boldValue
      let acc3 := if overlapEnd < segEnd then
          pushSeg acc2 (seg.text.drop (overlapEnd - segStart)) seg.bold
        else acc2
      updateSegmentsBoldGo rest start finish boldValue segEnd acc3

/-- `updateSegmentsBold` of Card.tsx: overwrite the boldness of the plain
range `[start, finish)`, splitting runs at the boundaries and coalescing
the result. -/
def updateSegmentsBold (segments : List TextSegment) (start finish : Nat) (boldValue : Bool) : List TextSegment :=
  updateSegmentsBoldGo segments start finish boldValue 0 []

/-- The two-character bold marker. -/
def star2 : List Char := ['*', '*']

/-- `renderSegments` of Card.tsx: serialize runs, wrapping bold runs in
`**` markers and skipping empty runs. -/
def renderSegments (segments : List TextSegment) : List Char :=
  segments.foldl
    (fun result seg =>
      if seg.text = [] then result
      else result ++ (if seg.bold then star2 ++ seg.text ++ star2 else seg.text))
    []

/-- The `hasUnbold` scan inside `toggleBoldAtSelection`: does any run
overlapping the plain range `[plainStart, plainEnd)` have `bold = false`? -/
def hasUnboldGo : List TextSegment → Nat → Nat → Nat → Bool
  | [], _, _, _ => false
  | seg :: rest, offset, plainStart, plainEnd =>
    let segStart := offset
    let segEnd := offset + seg.text.length
    if segEnd ≤ plainStart ∨ segStart ≥ plainEnd then hasUnboldGo rest segEnd plainStart plainEnd
    else if seg.bold = false then true
    else hasUnboldGo rest segEnd plainStart plainEnd

/-- JavaScript `endsWith("**")`. -/
def endsWith2Star (cs : List Char) : Bool :=
  cs.reverse.take 2 = star2

/-- JavaScript `startsWith("**")`. -/
def startsWith2Star (cs : List Char) : Bool :=
  cs.take 2 = star2

/-- `toggleBoldAtSelection` of Card.tsx.  A zero-width selection collapses
an enclosing `**|**` pair or inserts an empty `****` pair; a range
selection maps the endpoints to plain space, bolds if any overlapping run
is non-bold (otherwise unbolds), re-serializes and re-projects the plain
endpoints into the new string. -/
def toggleBoldAtSelection (text : List Char) (start finish : Nat) : List Char × Nat × Nat :=
  if start = finish then
    let before := text.take start
    let after := text.drop finish
    if endsWith2Star before ∧ startsWith2Star after then
      (before.take (before.length - 2) ++ after.drop 2, start - 2, start - 2)
    else
      (before ++ star2 ++ star2 ++ after, start + 2, start + 2)
  else
    let indexMap := buildIndexMap text
    let plainStart := indexMap.getD start 0
    let plainEnd := indexMap.getD finish plainStart
    let segments := buildSegments text
    let shouldBold := hasUnboldGo segments 0 plainStart plainEnd
    let nextSegments := updateSegmentsBold segments plainStart plainEnd shouldBold
    let newText := renderSegments nextSegments
    (newText, plainIndexToTextIndex newText plainStart, plainIndexToTextIndex newText plainEnd)

/-- The marker-stripped (logical) text: the same scan as `buildSegments`
with the run structure forgotten. -/
def plainChars : List Char → List Char
  | '*' :: '*' :: rest => plainChars rest
  | c :: rest => c :: plainChars rest
  | [] => []

/-- Concatenated text of a run list. -/
def concatTexts (segments : List TextSegment) : List Char :=
  (segments.map (·.text)).flatten

/-- Boldness of the plain position `p` in a run list (`false` beyond the
end). -/
def boldAt : List TextSegment → Nat → Bool
  | [], _ => false
  | seg :: rest, p => if p < seg.text.length then seg.bold else boldAt rest (p - seg.text.length)

/-- Number of `**` markers the scanner consumes (non-overlapping, left to
right). -/
def countMarkers : List Char → Nat
  | '*' :: '*' :: rest => countMarkers rest + 1
  | _ :: rest => countMarkers rest
  | [] => 0

/-- No `****` substring (equivalently: the scanner never consumes two
adjacent markers). -/
def noQuadStar : List Char → Bool
  | '*' :: '*' :: '*' :: '*' :: _ => false
  | _ :: rest => noQuadStar rest
  | [] => true

/-- No `**` substring. -/
def noDoubleStar : List Char → Bool
  | '*' :: '*' :: _ => false
  | _ :: rest => noDoubleStar rest
  | [] => true

end TextCut

namespace TextCut

/-! ### Fallback segmenter (`src/services/geminiService.ts`) -/

/-- Card layout. -/
inductive Layout where
  | standard
  | cover
deriving DecidableEq

/-- `CardSegment` of types.ts (presentation-only fields omitted). -/
structure CardSegment where
  title : List Char
  content : List Char
  layout : Layout
deriving DecidableEq

/-- JavaScript `split("\n\n")`: non-overlapping, left to right. -/
def splitParasGo : List Char → List Char → List (List Char)
  | buf, '\n' :: '\n' :: rest => buf :: splitParasGo [] rest
  | buf, c :: rest => splitParasGo (buf ++ [c]) rest
  | buf, [] => [buf]

/-- `text.split("\n\n")`. -/
def splitParas (text : List Char) : List (List Char) :=
  splitParasGo [] text

/-- JavaScript `trim()`. -/
def jsTrim (cs : List Char) : List Char :=
  ((cs.dropWhile Char.isWhitespace).reverse.dropWhile Char.isWhitespace).reverse

/-- The sentence-terminal punctuation class `[.,;!?。，；！？]` of the
header heuristic. -/
def punctChars : List Char := ['.', ',', ';', '!', '?', '。', '，', '；', '！', '？']

/-- `part.match(/[.,;!?。，；！？]/)` is non-null. -/
def hasPunct (cs : List Char) : Bool :=
  cs.any (fun c => punctChars.contains c)

/-- `part.replace(/#|\*/g, '').trim()`. -/
def cleanTitle (part : List Char) : List Char :=
  jsTrim (part.filter (fun c => ¬ (c = '#' ∨ c = '*')))

/-- The `MAX_CHARS` bound of the fallback branch. -/
def MAX_CHARS : Nat := 300

/-- Mutable state of the fallback accumulation loop. -/
structure FallbackState where
  segments : List CardSegment
  currentChunk : List Char
  currentTitle : List Char
  partCounter : Nat

/-- Title of a flushed chunk, with the `(n)` disambiguator for
`partCounter > 1`. -/
def flushTitle (st : FallbackState) : List Char :=
  if st.partCounter > 1 then
    st.currentTitle ++ " (".data ++ (Nat.repr st.partCounter).data ++ ")".data
  else st.currentTitle

/-- The standard segment flushed from the current chunk. -/
def flushSeg (st : FallbackState) : CardSegment :=
  ⟨flushTitle st, st.currentChunk, Layout.standard⟩

/-- One iteration of the `rawParagraphs.forEach` loop of the fallback
branch. -/
def fallbackStep (st : FallbackState) (part : List Char) : FallbackState :=
  if part.length < 50 ∧ hasPunct part = false then
    let st1 :=
      if st.currentChunk ≠ [] then
        { st with segments := st.segments ++ [flushSeg st], currentChunk := [], partCounter := 1 }
      else st
    { st1 with currentTitle := cleanTitle part }
  else if st.currentChunk.length + part.length > MAX_CHARS then
    { st with segments := st.segments ++ [flushSeg st], currentChunk := part,
              partCounter := st.partCounter + 1 }
  else
    { st with currentChunk := st.currentChunk ++ (if st.currentChunk ≠ [] then ['\n', '\n'] else []) ++ part }

/-- The leading cover card of the fallback. -/
def coverStart : CardSegment := ⟨"Project Text".data, [], Layout.cover⟩

/-- The trailing cover card of the fallback. -/
def coverEnd : CardSegment := ⟨"The End".data, [], Layout.cover⟩

/-- The deterministic fallback branch of `splitTextIntoCards`. -/
def splitTextIntoCardsFallback (text : List Char) : List CardSegment :=
  let rawParagraphs := (splitParas text).filter (fun t => 0 < (jsTrim t).length)
  let st := rawParagraphs.foldl fallbackStep ⟨[coverStart], [], "Note Sequence".data, 1⟩
  let segs := if st.currentChunk ≠ [] then st.segments ++ [flushSeg st] else st.segments
  segs ++ [coverEnd]

/-! ### Overflow resplitter (`handleSplitCard` of Card.tsx) -/

/-- Sentence-terminal characters of the resplitter regex. -/
def isTerm (c : Char) : Bool := c = '.' ∨ c = '!' ∨ c = '?'

/-- One-pass automaton implementing the global matches of
`/[^.!?]+[.!?]+/g`: a match is a maximal run of non-terminators followed
by a maximal run of terminators; characters outside any match are
dropped.  `acc` is the pending match, `inTerms` records whether the
pending match has reached its terminator part. -/
def sentMatchesGo : List Char → List Char → Bool → List (List Char)
  | c :: rest, acc, inTerms =>
    if isTerm c then
      if acc = [] then sentMatchesGo rest [] false
      else sentMatchesGo rest (acc ++ [c]) true
    else
      if inTerms then acc :: sentMatchesGo rest [c] false
      else sentMatchesGo rest (acc ++ [c]) false
  | [], acc, inTerms => if inTerms then [acc] else []

/-- `content.match(/[^.!?]+[.!?]+/g)` (the empty list standing for a null
match result). -/
def sentMatches (cs : List Char) : List (List Char) :=
  sentMatchesGo cs [] false

/-- The ellipsis padding of the character-split branch. -/
def dots : List Char := ['.', '.', '.']

/-- The pure core of `handleSplitCard`: compute `(kept, moved)` by the
paragraph / sentence / character cascade; `some` exactly when the code
calls `onUpdate` and `onSplit` (both pieces non-empty), `none` when it
leaves the segment list unchanged. -/
def handleSplitCard (editContent : List Char) : Option (List Char × List Char) :=
  let paragraphs := splitParas editContent
  let keptMoved :=
    if paragraphs.length > 1 then
      (List.intercalate ['\n', '\n'] paragraphs.dropLast, paragraphs.getLastD [])
    else
      let ms := sentMatches editContent
      let sentences := if ms = [] then [editContent] else ms
      if sentences.length > 1 then
        let splitIndex := 7 * sentences.length / 10
        (jsTrim (sentences.take splitIndex).flatten, jsTrim (sentences.drop splitIndex).flatten)
      else
        let mid := 7 * editContent.length / 10
        (editContent.take mid ++ dots, dots ++ editContent.drop mid)
  if keptMoved.1 ≠ [] ∧ keptMoved.2 ≠ [] then some keptMoved else none

end TextCut


namespace TextCut

/-! ### Primary-strategy response handling (`splitTextIntoCards`, geminiService.ts) -/

/-- JSON values, modelling the result of the platform `JSON.parse`. -/
inductive Json where
  | null
  | bool (b : Bool)
  | num (n : Int)
  | str (s : List Char)
  | arr (elems : List Json)
  | obj (fields : List (List Char × Json))

/-- Outcome of the awaited service call: the request may reject, or
resolve with a `response.text` that may itself be absent. -/
inductive ServiceOutcome where
  | failure
  | success (text : Option (List Char))

/-- What `splitTextIntoCards` returns to its caller: either the local
fallback list, or the raw `segments` field of the parsed payload passed
through without shape validation (`none` standing for the JavaScript
`undefined`). -/
inductive SplitOutcome where
  | fromFallback (segs : List CardSegment)
  | passthrough (segmentsField : Option Json)

/-- `parsedData.segments`: property access on the parsed value.  On
`null` it throws a TypeError (caught by the surrounding try); on any
other non-object it yields `undefined`; on an object it looks up the
field. -/
def segmentsAccess : Json → Except Unit (Option Json)
  | Json.null => Except.error ()
  | Json.obj fields => Except.ok ((fields.find? (fun f => f.1 == "segments".data)).map (·.2))
  | _ => Except.ok none

/-- The backtick character of the code-fence regex. -/
def fence : Char := Char.ofNat 96

/-- The scan of the global code-fence replace, with an explicit fuel
(each step consumes at least one character, so any fuel at or above the
length gives the untruncated scan). -/
def removeFencesGo : Nat → List Char → List Char
  | 0, cs => cs
  | _ + 1, [] => []
  | fuel + 1, c :: rest =>
    if c = fence then
      match rest with
      | c2 :: c3 :: rest3 =>
        if c2 = fence ∧ c3 = fence then
          match rest3 with
          | 'j' :: 's' :: 'o' :: 'n' :: rest4 => removeFencesGo fuel rest4
          | _ => removeFencesGo fuel rest3
        else c :: removeFencesGo fuel rest
      | _ => c :: removeFencesGo fuel rest
    else c :: removeFencesGo fuel rest

/-- The global replace of the code-fence regex (alternation preferring
the json-tagged opening fence) with the empty string. -/
def removeFences (cs : List Char) : List Char :=
  removeFencesGo cs.length cs

/-- The response-handling pipeline of `splitTextIntoCards` (lines 51-92
of geminiService.ts), with the service outcome and the platform JSON
parser as explicit inputs: clean and trim the response text, treat an
empty result or a parse error as primary failure recovered by the
fallback, and otherwise return the payload's `segments` field as-is. -/
def splitTextIntoCards (svc : ServiceOutcome) (parseJson : List Char → Except Unit Json)
    (text : List Char) : SplitOutcome :=
  match svc with
  | ServiceOutcome.failure => SplitOutcome.fromFallback (splitTextIntoCardsFallback text)
  | ServiceOutcome.success rtext =>
    let jsonStr := match rtext with
      | none => []
      | some s => if s = [] then [] else jsTrim (removeFences s)
    if jsonStr = [] then SplitOutcome.fromFallback (splitTextIntoCardsFallback text)
    else
      match parseJson jsonStr with
      | Except.error _ => SplitOutcome.fromFallback (splitTextIntoCardsFallback text)
      | Except.ok v =>
        match segmentsAccess v with
        | Except.error _ => SplitOutcome.fromFallback (splitTextIntoCardsFallback text)
        | Except.ok fld => SplitOutcome.passthrough fld

end TextCut

namespace TextCut

/-! ### Claim theorems: concrete counterexamples and scenario claims -/

/-- Claim C1, counterexample: for the raw string `a**b**` and the valid
storage range `[0,6]` (a mixed selection: `a` non-bold, `b` bold), the
first toggle bolds everything and the second toggle with the
freshly-returned selection unbolds everything, yielding `ab` rather than
the original text. -/
theorem C1_counterexample :
    6 ≤ "a**b**".data.length ∧
    (toggleBoldAtSelection (toggleBoldAtSelection "a**b**".data 0 6).1
        (toggleBoldAtSelection "a**b**".data 0 6).2.1
        (toggleBoldAtSelection "a**b**".data 0 6).2.2).1 ≠ "a**b**".data := by
  decide

/-- Claim C2, counterexample: `****` contains an even number (two) of
`**` marker occurrences, yet serializing its parsed runs yields the
empty string, not the input. -/
theorem C2_counterexample :
    countMarkers "****".data % 2 = 0 ∧
    renderSegments (buildSegments "****".data) ≠ "****".data := by
  decide

/-- Claim C3, counterexample: on empty content the overflow split does
not report unsplittable; the character branch pads both pieces to `...`,
so the guard passes and the code updates the segment and inserts a new
one. -/
theorem C3_counterexample :
    handleSplitCard [] = some (dots, dots) ∧ some (dots, dots) ≠ (none : Option (List Char × List Char)) := by
  decide

/-- Claim C3, amended: for empty or single-character content the
operation still splits: it returns kept = `...` and moved = `...` plus
the content (both non-empty), so the caller updates the segment and
inserts a new one; the not-splittable guard never fires on such input. -/
theorem C3_amended (content : List Char) (h : content.length ≤ 1) :
    handleSplitCard content = some (dots, dots ++ content) := by
  match content with
  | [] => decide
  | [c] =>
    cases hc : isTerm c <;>
      simp [handleSplitCard, splitParas, splitParasGo, sentMatches, sentMatchesGo, hc, dots]
  | _ :: _ :: _ => simp only [List.length_cons] at h; omega

/-- Witness for C3-amended at the single character `x`. -/
theorem C3_amended_witness :
    (['x'] : List Char).length ≤ 1 ∧ handleSplitCard ['x'] = some (dots, dots ++ ['x']) :=
  ⟨by decide, C3_amended ['x'] (by decide)⟩

/-- Claim C4, counterexample: for `Hello` with storage selection `[0,5]`
the toggle does not return the selection `[2,7]`. -/
theorem C4_counterexample :
    toggleBoldAtSelection "Hello".data 0 5 ≠ ("**Hello**".data, 2, 7) := by
  decide

/-- Claim C4, amended: the toggle returns `**Hello**` with selection
`[2,9]`: the re-projection of logical offset 5 skips the closing `**`
markers before emitting a position, so the selection end lands after
them, at the storage length. -/
theorem C4_amended :
    toggleBoldAtSelection "Hello".data 0 5 = ("**Hello**".data, 2, 9) := by
  decide

set_option maxRecDepth 20000 in
/-- Claim C5, counterexample: for two 150-character paragraphs (none
exceeding the 300-character bound) the fallback accumulates them with a
`\n\n` separator into a single middle segment of length 302, exceeding
the configured bound. -/
theorem C5_counterexample :
    ((splitParas (List.replicate 150 'a' ++ '\n' :: '\n' :: List.replicate 150 'b')).all
        (fun p => p.length ≤ MAX_CHARS)) = true ∧
    (splitTextIntoCardsFallback (List.replicate 150 'a' ++ '\n' :: '\n' :: List.replicate 150 'b')).map
        (fun seg => (seg.layout, seg.content.length)) =
      [(Layout.cover, 0), (Layout.standard, 302), (Layout.cover, 0)] := by
  decide

/-- Claim C7, counterexample: for the raw input `## Header\nBody text.`
(single newline, not a blank line) the header and body are one paragraph
containing a period, so the header heuristic does not fire: no segment
has title `Header` with content `Body text.`. -/
theorem C7_counterexample :
    splitTextIntoCardsFallback "## Header\nBody text.".data =
      [coverStart, ⟨"Note Sequence".data, "## Header\nBody text.".data, Layout.standard⟩, coverEnd] ∧
    ((splitTextIntoCardsFallback "## Header\nBody text.".data).all
        (fun seg => !(seg.title == "Header".data && seg.content == "Body text.".data))) = true := by
  decide

/-- Claim C7, amended: the scenario requires a blank-line separator:
for `## Header\n\nBody text.` the fallback promotes the header to the
title and does not duplicate it in any body. -/
theorem C7_amended :
    splitTextIntoCardsFallback "## Header\n\nBody text.".data =
      [coverStart, ⟨"Header".data, "Body text.".data, Layout.standard⟩, coverEnd] := by
  decide

/-- Claim C9, counterexample: `Hi` is non-empty with no blank-line break,
but it is classified as a header (short, no punctuation), so the
fallback produces no Standard segment at all - only the two covers. -/
theorem C9_counterexample :
    "Hi".data ≠ [] ∧ splitParas "Hi".data = ["Hi".data] ∧
    ((splitTextIntoCardsFallback "Hi".data).all (fun seg => seg.layout == Layout.cover)) = true := by
  decide

/-- Claim C9, amended: for input with no blank-line paragraph break that
is not blank, not header-classified (at least 50 characters or with
punctuation) and within the length bound, the fallback degrades to
exactly one Standard segment holding the whole input between the two
synthetic covers. -/
theorem C9_amended (text : List Char)
    (hpara : splitParas text = [text])
    (htrim : jsTrim text ≠ [])
    (hhead : ¬ (text.length < 50 ∧ hasPunct text = false))
    (hlen : text.length ≤ MAX_CHARS) :
    splitTextIntoCardsFallback text =
      [coverStart, ⟨"Note Sequence".data, text, Layout.standard⟩, coverEnd] := by
  have htext : text ≠ [] := by
    intro h; rw [h] at htrim; exact htrim rfl
  have hdec : decide (0 < (jsTrim text).length) = true :=
    decide_eq_true (List.length_pos.mpr htrim)
  have hlt : ¬ MAX_CHARS < text.length := Nat.not_lt.mpr hlen
  simp [splitTextIntoCardsFallback, hpara, List.filter, hdec, fallbackStep, hhead, hlt, htext,
    flushSeg, flushTitle]

/-- Witness for C9-amended at `Hello, world.`. -/
theorem C9_amended_witness :
    splitParas "Hello, world.".data = ["Hello, world.".data] ∧
    jsTrim "Hello, world.".data ≠ [] ∧
    ¬ ("Hello, world.".data.length < 50 ∧ hasPunct "Hello, world.".data = false) ∧
    "Hello, world.".data.length ≤ MAX_CHARS ∧
    splitTextIntoCardsFallback "Hello, world.".data =
      [coverStart, ⟨"Note Sequence".data, "Hello, world.".data, Layout.standard⟩, coverEnd] :=
  ⟨by decide, by decide, by decide, by decide,
    C9_amended "Hello, world.".data (by decide) (by decide) (by decide) (by decide)⟩

end TextCut

namespace TextCut

/-- Claim C8, counterexample: a service response that parses successfully
as JSON but deviates from the expected shape (here: an object with no
`segments` field at all) is NOT recovered by the fallback - the
undefined field is passed through to the caller as the result. -/
theorem C8_counterexample :
    splitTextIntoCards (ServiceOutcome.success (some "x".data))
        (fun _ => Except.ok (Json.obj [])) [] = SplitOutcome.passthrough none ∧
    SplitOutcome.passthrough none ≠
      SplitOutcome.fromFallback (splitTextIntoCardsFallback []) := by
  refine ⟨rfl, fun h => SplitOutcome.noConfusion h⟩

/-- Claim C8, amended: service errors, absent or blank response text and
non-parseable payloads are recovered by returning the fallback (and the
model never throws); but a successfully parsed non-null payload is
returned as its raw `segments` field with no shape validation, so a
shape-deviant parsed response is passed through rather than discarded. -/
theorem C8_amended (svc : ServiceOutcome) (parseJson : List Char → Except Unit Json)
    (text : List Char) :
    splitTextIntoCards svc parseJson text =
        SplitOutcome.fromFallback (splitTextIntoCardsFallback text) ∨
    ∃ s v fld, svc = ServiceOutcome.success (some s) ∧
      parseJson (jsTrim (removeFences s)) = Except.ok v ∧ v ≠ Json.null ∧
      segmentsAccess v = Except.ok fld ∧
      splitTextIntoCards svc parseJson text = SplitOutcome.passthrough fld := by
  cases svc with
  | failure => exact Or.inl rfl
  | success rtext =>
    cases rtext with
    | none => exact Or.inl rfl
    | some s =>
      by_cases hs : s = []
      · subst hs; exact Or.inl rfl
      · by_cases hj : jsTrim (removeFences s) = []
        · exact Or.inl (by simp [splitTextIntoCards, hs, hj])
        · cases hp : parseJson (jsTrim (removeFences s)) with
          | error e => exact Or.inl (by simp [splitTextIntoCards, hs, hj, hp])
          | ok v =>
            cases hacc : segmentsAccess v with
            | error e =>
              exact Or.inl (by
                cases v <;> simp_all [splitTextIntoCards, segmentsAccess, hs, hj, hp])
            | ok fld =>
              refine Or.inr ⟨s, v, fld, rfl, hp, ?_, hacc, ?_⟩
              · intro hv; subst hv; exact Except.noConfusion (hacc.symm.trans rfl)
              · simp [splitTextIntoCards, hs, hj, hp, hacc]

end TextCut

namespace TextCut

/-! ### C6: the make-bold bias of the target-boldness computation -/

/-- Plain offset at which the `i`-th run starts. -/
def runStart (segments : List TextSegment) (i : Nat) : Nat :=
  ((segments.take i).map (fun seg => seg.text.length)).sum

theorem runStart_zero (segments : List TextSegment) : runStart segments 0 = 0 := rfl

theorem runStart_succ (seg : TextSegment) (rest : List TextSegment) (i : Nat) :
    runStart (seg :: rest) (i + 1) = seg.text.length + runStart rest i := by
  simp [runStart, List.take_succ_cons]

/-- The `hasUnbold` scan returns true exactly when some run overlapping
the plain selection range is non-bold. -/
theorem hasUnboldGo_iff (segments : List TextSegment) (off plainStart plainEnd : Nat) :
    hasUnboldGo segments off plainStart plainEnd = true ↔
      ∃ i : Fin segments.length,
        ¬(off + runStart segments i + (segments.get i).text.length ≤ plainStart ∨
          plainEnd ≤ off + runStart segments i) ∧
        (segments.get i).bold = false := by
  induction segments generalizing off with
  | nil => simp [hasUnboldGo]
  | cons seg rest ih =>
    simp only [hasUnboldGo]
    by_cases hskip : off + seg.text.length ≤ plainStart ∨ plainEnd ≤ off
    · rw [if_pos hskip, ih]
      constructor
      · rintro ⟨i, hi⟩
        refine ⟨i.succ, ?_⟩
        simpa [runStart_succ, Fin.val_succ, Nat.add_assoc] using hi
      · rintro ⟨i, hi⟩
        revert hi
        refine Fin.cases ?_ ?_ i
        · intro hi
          refine absurd ?_ hi.1
          simpa [runStart_zero] using hskip
        · intro j hj
          exact ⟨j, by simpa [runStart_succ, Fin.val_succ, Nat.add_assoc] using hj⟩
    · rw [if_neg hskip]
      by_cases hbold : seg.bold = false
      · rw [if_pos hbold]
        simp only [true_iff]
        exact ⟨⟨0, Nat.succ_pos _⟩, by simpa [runStart_zero] using And.intro hskip hbold⟩
      · rw [if_neg hbold, ih]
        constructor
        · rintro ⟨i, hi⟩
          refine ⟨i.succ, ?_⟩
          simpa [runStart_succ, Fin.val_succ, Nat.add_assoc] using hi
        · rintro ⟨i, hi⟩
          revert hi
          refine Fin.cases ?_ ?_ i
          · intro hi
            exact absurd hi.2 hbold
          · intro j hj
            exact ⟨j, by simpa [runStart_succ, Fin.val_succ, Nat.add_assoc] using hj⟩

/-- Bool form of `hasUnboldGo_iff`. -/
theorem hasUnboldGo_eq_decide (segments : List TextSegment) (off plainStart plainEnd : Nat) :
    hasUnboldGo segments off plainStart plainEnd =
      decide (∃ i : Fin segments.length,
        ¬(off + runStart segments i + (segments.get i).text.length ≤ plainStart ∨
          plainEnd ≤ off + runStart segments i) ∧
        (segments.get i).bold = false) := by
  by_cases hp : ∃ i : Fin segments.length,
      ¬(off + runStart segments i + (segments.get i).text.length ≤ plainStart ∨
        plainEnd ≤ off + runStart segments i) ∧
      (segments.get i).bold = false
  · rw [(hasUnboldGo_iff segments off plainStart plainEnd).mpr hp, decide_eq_true hp]
  · rw [decide_eq_false hp]
    exact Bool.eq_false_iff.mpr
      (fun h => hp ((hasUnboldGo_iff segments off plainStart plainEnd).mp h))

/-- Claim C6: for every non-empty (range) selection,
`toggleBoldAtSelection` computes the target boldness as: true exactly
when some run overlapping the logical selection range is currently
non-bold (and false only when every overlapping run is bold) - a mixed
selection always resolves to make-bold - and applies that target to the
selection. -/
theorem C6_target_bold_bias (text : List Char) (start finish : Nat) (h : start ≠ finish) :
    toggleBoldAtSelection text start finish =
      (let plainStart := (buildIndexMap text).getD start 0
       let plainEnd := (buildIndexMap text).getD finish plainStart
       let segments := buildSegments text
       let targetBold := decide (∃ i : Fin segments.length,
         ¬(runStart segments i + (segments.get i).text.length ≤ plainStart ∨
           plainEnd ≤ runStart segments i) ∧
         (segments.get i).bold = false)
       let newText := renderSegments (updateSegmentsBold segments plainStart plainEnd targetBold)
       (newText, plainIndexToTextIndex newText plainStart, plainIndexToTextIndex newText plainEnd)) := by
  simp only [toggleBoldAtSelection, if_neg h]
  have := hasUnboldGo_eq_decide (buildSegments text)
    0 ((buildIndexMap text).getD start 0)
    ((buildIndexMap text).getD finish ((buildIndexMap text).getD start 0))
  simp only [Nat.zero_add] at this
  rw [this]

/-- Witness for C6 at the mixed selection (`a` non-bold, `b` bold) of
`a**b**` with storage range `[0,6]`: the existential target is true. -/
theorem C6_target_bold_bias_witness :
    (0 : Nat) ≠ 6 ∧
    toggleBoldAtSelection "a**b**".data 0 6 =
      (let plainStart := (buildIndexMap "a**b**".data).getD 0 0
       let plainEnd := (buildIndexMap "a**b**".data).getD 6 plainStart
       let segments := buildSegments "a**b**".data
       let targetBold := decide (∃ i : Fin segments.length,
         ¬(runStart segments i + (segments.get i).text.length ≤ plainStart ∨
           plainEnd ≤ runStart segments i) ∧
         (segments.get i).bold = false)
       let newText := renderSegments (updateSegmentsBold segments plainStart plainEnd targetBold)
       (newText, plainIndexToTextIndex newText plainStart, plainIndexToTextIndex newText plainEnd)) :=
  ⟨by decide, C6_target_bold_bias "a**b**".data 0 6 (by decide)⟩

end TextCut

namespace TextCut

/-! ### C10: toggling preserves the logical (marker-stripped) text -/

theorem plainChars_marker (rest : List Char) :
    plainChars ('*' :: '*' :: rest) = plainChars rest := rfl

theorem plainChars_cons_of_not (c c2 : Char) (rest : List Char) (h : ¬(c = '*' ∧ c2 = '*')) :
    plainChars (c :: c2 :: rest) = c :: plainChars (c2 :: rest) := by
  conv_lhs => rw [plainChars.eq_def]
  split
  · next r heq =>
    rw [List.cons.injEq, List.cons.injEq] at heq
    exact absurd ⟨heq.1, heq.2.1⟩ h
  · next c' r' heq =>
    rw [List.cons.injEq] at heq
    rw [heq.1, heq.2]
  · next heq => exact absurd heq (by simp)

theorem plainChars_cons_ne (c : Char) (rest : List Char) (h : c ≠ '*') :
    plainChars (c :: rest) = c :: plainChars rest := by
  cases rest with
  | nil =>
    conv_lhs => rw [plainChars.eq_def]
    split
    · next r heq => simp at heq
    · next c' r' heq =>
      rw [List.cons.injEq] at heq
      rw [heq.1, heq.2]
    · next heq => exact absurd heq (by simp)
  | cons c2 r2 => exact plainChars_cons_of_not c c2 r2 (fun hh => h hh.1)

theorem plainChars_singleton (c : Char) : plainChars [c] = [c] := by
  by_cases h : c = '*'
  · subst h; rfl
  · rw [plainChars_cons_ne c [] h]; rfl

/-- Inserting one `**` pair anywhere never changes the marker-stripped
text: the parity of every maximal star run is preserved. -/
theorem plainChars_insert_pair : ∀ (p r : List Char),
    plainChars (p ++ '*' :: '*' :: r) = plainChars (p ++ r)
  | [], r => rfl
  | [c], r => by
    by_cases hc : c = '*'
    · subst hc
      show plainChars ('*' :: '*' :: '*' :: r) = plainChars ('*' :: r)
      rw [plainChars_marker]
    · show plainChars (c :: '*' :: '*' :: r) = plainChars (c :: r)
      rw [plainChars_cons_of_not c '*' ('*' :: r) (fun hh => hc hh.1), plainChars_marker,
        plainChars_cons_ne c r hc]
  | c :: c2 :: p2, r => by
    by_cases hc : c = '*' ∧ c2 = '*'
    · obtain ⟨h1, h2⟩ := hc
      subst h1; subst h2
      show plainChars ('*' :: '*' :: (p2 ++ '*' :: '*' :: r)) = plainChars ('*' :: '*' :: (p2 ++ r))
      rw [plainChars_marker, plainChars_marker]
      exact plainChars_insert_pair p2 r
    · show plainChars (c :: c2 :: (p2 ++ '*' :: '*' :: r)) = plainChars (c :: c2 :: (p2 ++ r))
      rw [plainChars_cons_of_not c c2 _ hc, plainChars_cons_of_not c c2 _ hc]
      exact congrArg (c :: ·) (plainChars_insert_pair (c2 :: p2) r)

/-- The scanner is idempotent: stripping markers twice strips them once. -/
theorem plainChars_idem : ∀ t : List Char, plainChars (plainChars t) = plainChars t
  | [] => rfl
  | [c] => by rw [plainChars_singleton, plainChars_singleton]
  | c :: c2 :: t2 => by
    by_cases hc : c = '*' ∧ c2 = '*'
    · obtain ⟨h1, h2⟩ := hc
      subst h1; subst h2
      rw [plainChars_marker]
      exact plainChars_idem t2
    · rw [plainChars_cons_of_not c c2 t2 hc]
      by_cases h1 : c = '*'
      · have h2 : c2 ≠ '*' := fun hh => hc ⟨h1, hh⟩
        rw [plainChars_cons_ne c2 t2 h2]
        rw [plainChars_cons_of_not c c2 (plainChars t2) (fun hh => hc hh)]
        rw [plainChars_cons_ne c2 (plainChars t2) h2]
        exact congrArg (fun l => c :: c2 :: l) (plainChars_idem t2)
      · rw [plainChars_cons_ne c _ h1]
        exact congrArg (c :: ·) (plainChars_idem (c2 :: t2))

end TextCut

namespace TextCut

theorem concatTexts_nil : concatTexts [] = [] := rfl

theorem concatTexts_cons (seg : TextSegment) (rest : List TextSegment) :
    concatTexts (seg :: rest) = seg.text ++ concatTexts rest := by
  simp [concatTexts]

theorem concatTexts_append (a b : List TextSegment) :
    concatTexts (a ++ b) = concatTexts a ++ concatTexts b := by
  simp [concatTexts]

/-- The serialized form of one run. -/
def wrapSeg (seg : TextSegment) : List Char :=
  if seg.text = [] then [] else if seg.bold then star2 ++ seg.text ++ star2 else seg.text

theorem renderSegments_eq_flatten (segments : List TextSegment) :
    renderSegments segments = (segments.map wrapSeg).flatten := by
  suffices h : ∀ init, segments.foldl
      (fun result seg =>
        if seg.text = [] then result
        else result ++ (if seg.bold then star2 ++ seg.text ++ star2 else seg.text))
      init = init ++ (segments.map wrapSeg).flatten by
    simpa [renderSegments] using h []
  induction segments with
  | nil => intro init; simp
  | cons seg rest ih =>
    intro init
    simp only [List.foldl_cons, List.map_cons, List.flatten_cons, ih]
    by_cases ht : seg.text = []
    · simp [wrapSeg, ht]
    · simp [wrapSeg, ht, List.append_assoc]

/-- Dropping all rendered `**` wrappers yields the concatenated run text,
up to a final marker strip. -/
theorem plainChars_flatten_wrap : ∀ (segments : List TextSegment) (p : List Char),
    plainChars (p ++ (segments.map wrapSeg).flatten) = plainChars (p ++ concatTexts segments)
  | [], p => by simp [concatTexts]
  | seg :: rest, p => by
    simp only [List.map_cons, List.flatten_cons, concatTexts_cons]
    by_cases ht : seg.text = []
    · simp only [wrapSeg, ht, if_pos, List.nil_append]
      simpa [ht] using plainChars_flatten_wrap rest p
    · by_cases hb : seg.bold
      · have hw : wrapSeg seg = star2 ++ seg.text ++ star2 := by simp [wrapSeg, ht, hb]
        rw [hw]
        calc plainChars (p ++ (star2 ++ seg.text ++ star2 ++ (List.map wrapSeg rest).flatten))
            = plainChars (p ++ '*' :: '*' ::
                (seg.text ++ '*' :: '*' :: (List.map wrapSeg rest).flatten)) := by
              congr 1
              simp [star2, List.append_assoc]
          _ = plainChars (p ++ (seg.text ++ '*' :: '*' :: (List.map wrapSeg rest).flatten)) :=
              plainChars_insert_pair p _
          _ = plainChars ((p ++ seg.text) ++ '*' :: '*' :: (List.map wrapSeg rest).flatten) := by
              rw [List.append_assoc]
          _ = plainChars ((p ++ seg.text) ++ (List.map wrapSeg rest).flatten) :=
              plainChars_insert_pair (p ++ seg.text) _
          _ = plainChars ((p ++ seg.text) ++ concatTexts rest) :=
              plainChars_flatten_wrap rest (p ++ seg.text)
          _ = plainChars (p ++ (seg.text ++ concatTexts rest)) := by
              rw [List.append_assoc]
      · have hw : wrapSeg seg = seg.text := by simp [wrapSeg, ht, hb]
        rw [hw]
        have := plainChars_flatten_wrap rest (p ++ seg.text)
        simpa [List.append_assoc] using this

/-- Render then strip markers = concatenated text then strip markers. -/
theorem plainChars_render (segments : List TextSegment) :
    plainChars (renderSegments segments) = plainChars (concatTexts segments) := by
  rw [renderSegments_eq_flatten]
  simpa using plainChars_flatten_wrap segments []

theorem concatTexts_reverse_pushSeg (acc : List TextSegment) (text : List Char) (bold : Bool) :
    concatTexts (pushSeg acc text bold).reverse = concatTexts acc.reverse ++ text := by
  by_cases ht : text = []
  · simp [pushSeg, ht]
  · cases acc with
    | nil => simp [pushSeg, ht, concatTexts]
    | cons last rest =>
      by_cases hb : last.bold = bold
      · simp [pushSeg, ht, hb, concatTexts, List.append_assoc]
      · simp [pushSeg, ht, hb, concatTexts, List.append_assoc]

/-- Helper: the non-marker step of any scanner keeps the head character. -/
theorem plainChars_cons_of_step (c : Char) (rest : List Char)
    (h : ∀ r' : List Char, c = '*' → rest = '*' :: r' → False) :
    plainChars (c :: rest) = c :: plainChars rest := by
  cases rest with
  | nil => exact plainChars_singleton c
  | cons c2 r2 =>
    refine plainChars_cons_of_not c c2 r2 ?_
    rintro ⟨h1, h2⟩
    exact h r2 h1 (by rw [h2])

theorem plainChars_nil : plainChars [] = [] := rfl

/-- The scanner's non-marker step, as an unconditional rewrite. -/
theorem buildSegmentsGo_cons_of_step (c : Char) (rest : List Char) (bold : Bool)
    (buffer : List Char) (acc : List TextSegment)
    (h : ∀ r' : List Char, c = '*' → rest = '*' :: r' → False) :
    buildSegmentsGo (c :: rest) bold buffer acc = buildSegmentsGo rest bold (buffer ++ [c]) acc := by
  conv_lhs => rw [buildSegmentsGo.eq_def]
  split
  · next r heq =>
    rw [List.cons.injEq] at heq
    exact (h r heq.1 heq.2).elim
  · next c' r' heq =>
    rw [List.cons.injEq] at heq
    obtain ⟨h1, h2⟩ := heq
    subst h1; subst h2
    rfl
  · next heq => exact absurd heq (by simp)

/-- The concatenated text of the parsed runs is the marker-stripped text. -/
theorem concatTexts_buildSegmentsGo : ∀ (t : List Char) (bold : Bool) (buffer : List Char)
    (acc : List TextSegment),
    concatTexts (buildSegmentsGo t bold buffer acc) =
      concatTexts acc.reverse ++ buffer ++ plainChars t := by
  intro t bold buffer acc
  induction t, bold, buffer, acc using buildSegmentsGo.induct with
  | case1 rest bold buffer acc ih =>
    rw [buildSegmentsGo, ih, concatTexts_reverse_pushSeg, plainChars_marker, List.append_nil]
  | case2 c rest bold buffer acc h ih =>
    rw [buildSegmentsGo_cons_of_step c rest bold buffer acc h, ih,
      plainChars_cons_of_step c rest h]
    simp [List.append_assoc]
  | case3 bold buffer acc =>
    rw [buildSegmentsGo, concatTexts_reverse_pushSeg, plainChars_nil]
    simp

theorem concatTexts_buildSegments (t : List Char) :
    concatTexts (buildSegments t) = plainChars t := by
  simpa [concatTexts] using concatTexts_buildSegmentsGo t false [] []

end TextCut

namespace TextCut

theorem piece_recombine {α : Type} (l : List α) (a bb : Nat) (h : a ≤ bb) :
    l.take a ++ ((l.drop a).take (bb - a) ++ l.drop bb) = l := by
  have hd : l.drop bb = (l.drop a).drop (bb - a) := by
    rw [List.drop_drop]
    congr 1
    omega
  rw [hd, List.take_append_drop, List.take_append_drop]

/-- Overwriting boldness never changes the concatenated run text. -/
theorem concatTexts_updateSegmentsBoldGo : ∀ (segs : List TextSegment) (s f : Nat) (b : Bool)
    (off : Nat) (acc : List TextSegment), s ≤ f →
    concatTexts (updateSegmentsBoldGo segs s f b off acc) =
      concatTexts acc.reverse ++ concatTexts segs := by
  intro segs s f b
  induction segs with
  | nil =>
    intro off acc hsf
    simp [updateSegmentsBoldGo, concatTexts]
  | cons seg rest ih =>
    intro off acc hsf
    simp only [updateSegmentsBoldGo]
    split
    · next hskip =>
      rw [ih (off + seg.text.length) _ hsf, concatTexts_reverse_pushSeg, concatTexts_cons]
      simp [List.append_assoc]
    · next hno =>
      have hs1 : s < off + seg.text.length := by
        rcases Nat.lt_or_ge s (off + seg.text.length) with h1 | h1
        · exact h1
        · exact absurd (Or.inl h1) hno
      have hs2 : off < f := by
        rcases Nat.lt_or_ge off f with h2 | h2
        · exact h2
        · exact absurd (Or.inr h2) hno
      rw [ih (off + seg.text.length) _ hsf]
      have hacc1 : ∀ acc1kind : List TextSegment,
          acc1kind = (if off < max s off then
            pushSeg acc (seg.text.take (max s off - off)) seg.bold else acc) →
          concatTexts acc1kind.reverse =
            concatTexts acc.reverse ++ seg.text.take (max s off - off) := by
        intro acc1 hdef
        by_cases h1 : off < max s off
        · rw [hdef, if_pos h1, concatTexts_reverse_pushSeg]
        · have hmax : max s off = off := by omega
          rw [hdef, if_neg h1, hmax]
          simp
      rw [show (max s off) = max s off from rfl] at *
      set a := max s off - off with hadef
      set bb := min f (off + seg.text.length) - off with hbbdef
      have hab : a ≤ bb := by
        have : max s off ≤ min f (off + seg.text.length) := by
          rcases Nat.le_total s off with h3 | h3 <;> omega
        omega
      have key : concatTexts
          ((if min f (off + seg.text.length) < off + seg.text.length then
              pushSeg
                (pushSeg
                  (if off < max s off then
                    pushSeg acc (seg.text.take (max s off - off)) seg.bold else acc)
                  ((seg.text.drop (max s off - off)).take
                    (min f (off + seg.text.length) - max s off)) b)
                (seg.text.drop (min f (off + seg.text.length) - off)) seg.bold
            else
              pushSeg
                (if off < max s off then
                  pushSeg acc (seg.text.take (max s off - off)) seg.bold else acc)
                ((seg.text.drop (max s off - off)).take
                  (min f (off + seg.text.length) - max s off)) b)).reverse =
          concatTexts acc.reverse ++ seg.text := by
        have htk : min f (off + seg.text.length) - max s off = bb - a := by omega
        by_cases h3 : min f (off + seg.text.length) < off + seg.text.length
        · rw [if_pos h3, concatTexts_reverse_pushSeg, concatTexts_reverse_pushSeg,
            hacc1 _ rfl, htk]
          rw [List.append_assoc, List.append_assoc]
          congr 1
          exact piece_recombine seg.text a bb hab
        · rw [if_neg h3, concatTexts_reverse_pushSeg, hacc1 _ rfl, htk]
          have hbb : bb = seg.text.length := by omega
          have hdropnil : seg.text.drop bb = [] := by
            rw [hbb, List.drop_length]
          have := piece_recombine seg.text a bb hab
          rw [hdropnil, List.append_nil] at this
          rw [List.append_assoc, this]
      rw [key, concatTexts_cons, List.append_assoc]

theorem concatTexts_updateSegmentsBold (segs : List TextSegment) (s f : Nat) (b : Bool)
    (h : s ≤ f) :
    concatTexts (updateSegmentsBold segs s f b) = concatTexts segs := by
  simpa [concatTexts] using concatTexts_updateSegmentsBoldGo segs s f b 0 [] h

end TextCut

namespace TextCut

/-- The index-map scanner's non-marker step, as an unconditional rewrite. -/
theorem buildIndexMapGo_cons_of_step (c : Char) (rest : List Char) (k : Nat)
    (h : ∀ r' : List Char, c = '*' → rest = '*' :: r' → False) :
    buildIndexMapGo (c :: rest) k = k :: buildIndexMapGo rest (k + 1) := by
  conv_lhs => rw [buildIndexMapGo.eq_def]
  split
  · next r heq =>
    rw [List.cons.injEq] at heq
    exact (h r heq.1 heq.2).elim
  · next c' r' heq =>
    rw [List.cons.injEq] at heq
    obtain ⟨h1, h2⟩ := heq
    subst h1; subst h2
    rfl
  · next heq => exact absurd heq (by simp)

theorem buildIndexMapGo_ge : ∀ (t : List Char) (k : Nat), ∀ x ∈ buildIndexMapGo t k, k ≤ x := by
  intro t k
  induction t, k using buildIndexMapGo.induct with
  | case1 rest k ih =>
    intro x hx
    rw [buildIndexMapGo] at hx
    simp only [List.mem_cons] at hx
    rcases hx with h1 | h1 | h1
    · omega
    · omega
    · exact ih x h1
  | case2 c rest k h ih =>
    intro x hx
    rw [buildIndexMapGo_cons_of_step c rest k h] at hx
    simp only [List.mem_cons] at hx
    rcases hx with h1 | h1
    · omega
    · exact Nat.le_of_succ_le (ih x h1)
  | case3 k =>
    intro x hx
    rw [buildIndexMapGo] at hx
    simp only [List.mem_cons, List.not_mem_nil, or_false] at hx
    omega

theorem buildIndexMapGo_sorted : ∀ (t : List Char) (k : Nat),
    (buildIndexMapGo t k).Sorted (· ≤ ·) := by
  intro t k
  induction t, k using buildIndexMapGo.induct with
  | case1 rest k ih =>
    rw [buildIndexMapGo]
    refine List.sorted_cons.mpr ⟨?_, List.sorted_cons.mpr ⟨?_, ih⟩⟩
    · intro y hy
      simp only [List.mem_cons] at hy
      rcases hy with h1 | h1
      · omega
      · exact buildIndexMapGo_ge rest k y h1
    · intro y hy
      exact buildIndexMapGo_ge rest k y hy
  | case2 c rest k h ih =>
    rw [buildIndexMapGo_cons_of_step c rest k h]
    refine List.sorted_cons.mpr ⟨?_, ih⟩
    intro y hy
    exact Nat.le_of_succ_le (buildIndexMapGo_ge rest (k + 1) y hy)
  | case3 k =>
    rw [buildIndexMapGo]
    simp

/-- The plain selection endpoints computed by the range branch are
ordered whenever the storage endpoints are. -/
theorem plainStart_le_plainEnd (t : List Char) (s e : Nat) (hse : s ≤ e) :
    (buildIndexMap t).getD s 0 ≤ (buildIndexMap t).getD e ((buildIndexMap t).getD s 0) := by
  by_cases he : e < (buildIndexMap t).length
  · have hs : s < (buildIndexMap t).length := lt_of_le_of_lt hse he
    rw [List.getD_eq_get _ _ hs, List.getD_eq_get _ _ he]
    have hsorted : (buildIndexMap t).Sorted (· ≤ ·) := buildIndexMapGo_sorted t 0
    rcases lt_or_eq_of_le hse with hlt | heq
    · exact hsorted.rel_get_of_lt (Fin.mk_lt_mk.mpr hlt)
    · subst heq; rfl
  · rw [List.getD_eq_default _ _ (le_of_not_lt he)]

theorem endsWith2Star_decomp (cs : List Char) (h : endsWith2Star cs = true) :
    cs = cs.take (cs.length - 2) ++ ['*', '*'] := by
  have hr : cs.reverse.take 2 = ['*', '*'] := by
    simpa [endsWith2Star, star2] using h
  have hrev : cs.reverse = ['*', '*'] ++ cs.reverse.drop 2 := by
    conv_lhs => rw [← List.take_append_drop 2 cs.reverse, hr]
  have hcs : cs = (cs.reverse.drop 2).reverse ++ ['*', '*'] := by
    conv_lhs => rw [← List.reverse_reverse cs, hrev]
    simp
  have htake : cs.take (cs.length - 2) = (cs.reverse.drop 2).reverse := by
    rw [hcs]
    simp [List.take_left]
  rw [htake]
  exact hcs

theorem startsWith2Star_decomp (cs : List Char) (h : startsWith2Star cs = true) :
    cs = '*' :: '*' :: cs.drop 2 := by
  have hr : cs.take 2 = ['*', '*'] := by
    simpa [startsWith2Star, star2] using h
  conv_lhs => rw [← List.take_append_drop 2 cs, hr]
  rfl

/-- Claim C10: for every text and every selection with `start ≤ finish`
(zero-width or range), the marker-stripped logical text of the toggled
string equals that of the input: toggling only inserts or removes `**`
markers, never changing, reordering or dropping a visible character. -/
theorem C10_logical_text_preserved (text : List Char) (s e : Nat) (hse : s ≤ e) :
    plainChars (toggleBoldAtSelection text s e).1 = plainChars text := by
  by_cases h : s = e
  · subst h
    simp only [toggleBoldAtSelection, if_pos rfl]
    by_cases hcol : endsWith2Star (text.take s) = true ∧ startsWith2Star (text.drop s) = true
    · rw [if_pos hcol]
      obtain ⟨h1, h2⟩ := hcol
      have hb := endsWith2Star_decomp (text.take s) h1
      have ha := startsWith2Star_decomp (text.drop s) h2
      show plainChars ((text.take s).take ((text.take s).length - 2) ++ (text.drop s).drop 2) =
        plainChars text
      conv_rhs => rw [← List.take_append_drop s text, hb, ha]
      calc plainChars ((text.take s).take ((text.take s).length - 2) ++ (text.drop s).drop 2)
          = plainChars ((text.take s).take ((text.take s).length - 2) ++
              '*' :: '*' :: (text.drop s).drop 2) :=
            (plainChars_insert_pair _ _).symm
        _ = plainChars ((text.take s).take ((text.take s).length - 2) ++
              '*' :: '*' :: ('*' :: '*' :: (text.drop s).drop 2)) :=
            (plainChars_insert_pair _ _).symm
        _ = plainChars ((text.take s).take ((text.take s).length - 2) ++ ['*', '*'] ++
              ('*' :: '*' :: (text.drop s).drop 2)) := by
            rw [List.append_assoc]
            rfl
    · rw [if_neg hcol]
      show plainChars (text.take s ++ star2 ++ star2 ++ text.drop s) = plainChars text
      calc plainChars (text.take s ++ star2 ++ star2 ++ text.drop s)
          = plainChars (text.take s ++ '*' :: '*' :: ('*' :: '*' :: text.drop s)) := by
            congr 1
            simp [star2, List.append_assoc]
        _ = plainChars (text.take s ++ '*' :: '*' :: text.drop s) :=
            plainChars_insert_pair _ _
        _ = plainChars (text.take s ++ text.drop s) :=
            plainChars_insert_pair _ _
        _ = plainChars text := by rw [List.take_append_drop]
  · simp only [toggleBoldAtSelection, if_neg h]
    show plainChars (renderSegments (updateSegmentsBold (buildSegments text)
      ((buildIndexMap text).getD s 0)
      ((buildIndexMap text).getD e ((buildIndexMap text).getD s 0))
      (hasUnboldGo (buildSegments text) 0 ((buildIndexMap text).getD s 0)
        ((buildIndexMap text).getD e ((buildIndexMap text).getD s 0))))) = plainChars text
    rw [plainChars_render,
      concatTexts_updateSegmentsBold _ _ _ _ (plainStart_le_plainEnd text s e hse),
      concatTexts_buildSegments, plainChars_idem]

/-- Witness for C10 at `a**b` with storage selection `[1,3]`. -/
theorem C10_logical_text_preserved_witness :
    (1 : Nat) ≤ 3 ∧
    plainChars (toggleBoldAtSelection "a**b".data 1 3).1 = plainChars "a**b".data :=
  ⟨by decide, C10_logical_text_preserved "a**b".data 1 3 (by decide)⟩

end TextCut

namespace TextCut

/-! ### C2: round-trip of the run parser and serializer -/

theorem noQuadStar_tail (c : Char) (rest : List Char) (h : noQuadStar (c :: rest) = true) :
    noQuadStar rest = true := by
  rw [noQuadStar.eq_def] at h
  split at h
  · exact absurd h (by simp)
  · next c' r' heq =>
    rw [List.cons.injEq] at heq
    rw [heq.2]
    exact h
  · next heq => exact absurd heq (by simp)

theorem noQuadStar_marker (rest : List Char) (h : noQuadStar ('*' :: '*' :: rest) = true) :
    (∀ r' : List Char, rest = '*' :: '*' :: r' → False) ∧ noQuadStar rest = true := by
  constructor
  · intro r' hr
    subst hr
    simp [noQuadStar] at h
  · exact noQuadStar_tail _ _ (noQuadStar_tail _ _ h)

theorem countMarkers_marker (rest : List Char) :
    countMarkers ('*' :: '*' :: rest) = countMarkers rest + 1 := rfl

theorem countMarkers_cons_of_step (c : Char) (rest : List Char)
    (h : ∀ r' : List Char, c = '*' → rest = '*' :: r' → False) :
    countMarkers (c :: rest) = countMarkers rest := by
  conv_lhs => rw [countMarkers.eq_def]
  split
  · next r heq =>
    rw [List.cons.injEq] at heq
    exact (h r heq.1 heq.2).elim
  · next c' r' heq =>
    rw [List.cons.injEq] at heq
    rw [heq.2]
  · next heq => exact absurd heq (by simp)

theorem renderSegments_reverse_append (a b : List TextSegment) :
    renderSegments ((a ++ b).reverse) = renderSegments b.reverse ++ renderSegments a.reverse := by
  rw [renderSegments_eq_flatten, renderSegments_eq_flatten, renderSegments_eq_flatten]
  simp

/-- Rendering after a push that cannot coalesce (the head run's boldness
differs) appends exactly the serialized pushed run. -/
theorem renderSegments_reverse_pushSeg (acc : List TextSegment) (buf : List Char) (bold : Bool)
    (hh : ∀ a ∈ acc.head?, a.bold = !bold) :
    renderSegments (pushSeg acc buf bold).reverse =
      renderSegments acc.reverse ++ wrapSeg ⟨buf, bold⟩ := by
  by_cases hbuf : buf = []
  · simp [pushSeg, hbuf, wrapSeg]
  · cases acc with
    | nil =>
      simp [pushSeg, hbuf, renderSegments_eq_flatten, wrapSeg, star2]
    | cons last rest =>
      have hne : last.bold ≠ bold := by
        have := hh last (by simp)
        rw [this]
        simp
      have hpush : pushSeg (last :: rest) buf bold = ⟨buf, bold⟩ :: last :: rest := by
        simp [pushSeg, hbuf, hne]
      rw [hpush, show (⟨buf, bold⟩ :: last :: rest : List TextSegment) =
        [(⟨buf, bold⟩ : TextSegment)] ++ (last :: rest) from rfl]
      rw [renderSegments_reverse_append]
      congr 1

theorem startsWith2Star_false_of_guard (rest : List Char)
    (h : ∀ r' : List Char, rest = '*' :: '*' :: r' → False) :
    startsWith2Star rest = false := by
  by_cases hs : startsWith2Star rest = true
  · exact absurd (startsWith2Star_decomp rest hs) (fun hd => (h _ hd).elim)
  · simpa using hs

/-- Master reconstruction lemma for the scanner: under no adjacent
markers and an even number of markers remaining relative to the current
bold flag, serializing the parse result reproduces the consumed prefix
(runs so far, an open marker if bold, and the pending buffer) followed by
the unconsumed input. -/
theorem render_buildSegmentsGo : ∀ (t : List Char) (bold : Bool) (buffer : List Char)
    (acc : List TextSegment),
    noQuadStar t = true →
    (countMarkers t + (if bold then 1 else 0)) % 2 = 0 →
    (∀ a ∈ acc.head?, a.bold = !bold) →
    (buffer = [] → (acc ≠ [] ∨ bold = true) → startsWith2Star t = false) →
    renderSegments (buildSegmentsGo t bold buffer acc) =
      renderSegments acc.reverse ++ (if bold then star2 else []) ++ buffer ++ t := by
  intro t bold buffer acc
  induction t, bold, buffer, acc using buildSegmentsGo.induct with
  | case1 rest bold buffer acc ih =>
    intro hq hpar hhead hstart
    obtain ⟨hguard, hqrest⟩ := noQuadStar_marker rest hq
    have hparrest : (countMarkers rest + (if !bold then 1 else 0)) % 2 = 0 := by
      rw [countMarkers_marker] at hpar
      cases bold
      · simpa using hpar
      · simp at hpar ⊢
        omega
    have hbufcase : buffer = [] → acc = [] ∧ bold = false := by
      intro hb
      by_cases hacc : acc = []
      · refine ⟨hacc, ?_⟩
        by_cases hbold : bold = true
        · have := hstart hb (Or.inr hbold)
          simp [startsWith2Star, star2] at this
        · simpa using hbold
      · have := hstart hb (Or.inl hacc)
        simp [startsWith2Star, star2] at this
    rw [buildSegmentsGo]
    rw [ih hqrest hparrest ?hhead ?hstart]
    case hhead =>
      intro a ha
      by_cases hbuf : buffer = []
      · obtain ⟨hacc, _⟩ := hbufcase hbuf
        rw [hbuf, hacc] at ha
        simp [pushSeg] at ha
      · cases acc with
        | nil =>
          simp [pushSeg, hbuf] at ha
          rw [← ha]
          simp
        | cons last rest' =>
          have hne : last.bold ≠ bold := by
            have := hhead last (by simp)
            rw [this]; simp
          simp [pushSeg, hbuf, hne] at ha
          rw [← ha]
          simp
    case hstart =>
      intro _ _
      exact startsWith2Star_false_of_guard rest hguard
    by_cases hbuf : buffer = []
    · obtain ⟨hacc, hbold⟩ := hbufcase hbuf
      subst hacc
      subst hbold
      simp [hbuf, pushSeg, star2]
    · rw [renderSegments_reverse_pushSeg acc buffer bold hhead]
      cases bold with
      | true => simp [wrapSeg, hbuf, star2, List.append_assoc]
      | false => simp [wrapSeg, hbuf, star2, List.append_assoc]
  | case2 c rest bold buffer acc h ih =>
    intro hq hpar hhead hstart
    rw [buildSegmentsGo_cons_of_step c rest bold buffer acc h]
    rw [ih (noQuadStar_tail c rest hq) (by rwa [countMarkers_cons_of_step c rest h] at hpar)
      hhead (by intro hb; exact absurd hb (by simp))]
    simp [List.append_assoc]
  | case3 bold buffer acc =>
    intro _ hpar hhead _
    have hbold : bold = false := by
      cases bold
      · rfl
      · simp [countMarkers] at hpar
    subst hbold
    rw [buildSegmentsGo, renderSegments_reverse_pushSeg acc buffer false hhead]
    by_cases hbuf : buffer = [] <;> simp [wrapSeg, hbuf]

/-- Claim C2, amended: the even-marker-count condition must be joined
with the absence of adjacent markers (no `****` substring); then
serializing the parsed runs reproduces the input exactly. -/
theorem C2_amended (raw : List Char) (heven : countMarkers raw % 2 = 0)
    (hq : noQuadStar raw = true) :
    renderSegments (buildSegments raw) = raw := by
  have := render_buildSegmentsGo raw false [] [] hq (by simpa using heven)
    (by intro a ha; simp at ha)
    (by intro _ hor; rcases hor with h1 | h1
        · exact absurd rfl h1
        · exact absurd h1 (by simp))
  simpa [renderSegments] using this

/-- Witness for C2-amended at `**a**`. -/
theorem C2_amended_witness :
    countMarkers "**a**".data % 2 = 0 ∧ noQuadStar "**a**".data = true ∧
    renderSegments (buildSegments "**a**".data) = "**a**".data :=
  ⟨by decide, by decide, C2_amended "**a**".data (by decide) (by decide)⟩

end TextCut

namespace TextCut

/-! ### C5: shape of the fallback output -/

/-- A middle segment's admissible content: empty, a single input
paragraph, or within the bound plus one blank-line separator. -/
def chunkOk (paras : List (List Char)) (c : List Char) : Prop :=
  c = [] ∨ c ∈ paras ∨ c.length ≤ MAX_CHARS + 2

/-- A middle segment is standard with admissible content. -/
def middleOk (paras : List (List Char)) (seg : CardSegment) : Prop :=
  seg.layout = Layout.standard ∧ chunkOk paras seg.content

theorem fallbackStep_preserves (paras : List (List Char)) (st : FallbackState) (part : List Char)
    (hpart : part ∈ paras)
    (hseg : ∃ tail, st.segments = coverStart :: tail ∧ ∀ seg ∈ tail, middleOk paras seg)
    (hchunk : chunkOk paras st.currentChunk) :
    (∃ tail, (fallbackStep st part).segments = coverStart :: tail ∧
      ∀ seg ∈ tail, middleOk paras seg) ∧
    chunkOk paras (fallbackStep st part).currentChunk := by
  obtain ⟨tail, hst, htail⟩ := hseg
  have hflush : middleOk paras (flushSeg st) := ⟨rfl, hchunk⟩
  have happ : ∃ tail2, (st.segments ++ [flushSeg st]) = coverStart :: tail2 ∧
      ∀ seg ∈ tail2, middleOk paras seg := by
    refine ⟨tail ++ [flushSeg st], by rw [hst]; rfl, ?_⟩
    intro seg hm
    rcases List.mem_append.mp hm with hm | hm
    · exact htail seg hm
    · rw [List.mem_singleton.mp hm]
      exact hflush
  unfold fallbackStep
  by_cases hhead : part.length < 50 ∧ hasPunct part = false
  · rw [if_pos hhead]
    by_cases hch : st.currentChunk ≠ []
    · rw [if_pos hch]
      exact ⟨happ, Or.inl rfl⟩
    · rw [if_neg hch]
      refine ⟨⟨tail, hst, htail⟩, ?_⟩
      simpa using hchunk
  · rw [if_neg hhead]
    by_cases hlen : st.currentChunk.length + part.length > MAX_CHARS
    · rw [if_pos hlen]
      exact ⟨happ, Or.inr (Or.inl hpart)⟩
    · rw [if_neg hlen]
      refine ⟨⟨tail, hst, htail⟩, ?_⟩
      by_cases hch : st.currentChunk ≠ []
      · rw [if_pos hch]
        refine Or.inr (Or.inr ?_)
        simp only [List.length_append, List.length_cons, List.length_nil]
        omega
      · rw [if_neg hch]
        push_neg at hch
        rw [hch]
        exact Or.inr (Or.inl (by simpa using hpart))

theorem fallback_foldl_inv (paras : List (List Char)) :
    ∀ (parts : List (List Char)) (st : FallbackState),
    (∀ p ∈ parts, p ∈ paras) →
    (∃ tail, st.segments = coverStart :: tail ∧ ∀ seg ∈ tail, middleOk paras seg) →
    chunkOk paras st.currentChunk →
    (∃ tail, (parts.foldl fallbackStep st).segments = coverStart :: tail ∧
      ∀ seg ∈ tail, middleOk paras seg) ∧
    chunkOk paras (parts.foldl fallbackStep st).currentChunk := by
  intro parts
  induction parts with
  | nil =>
    intro st _ hseg hchunk
    exact ⟨hseg, hchunk⟩
  | cons part rest ih =>
    intro st hp hseg hchunk
    simp only [List.foldl_cons]
    have step := fallbackStep_preserves paras st part (hp part (List.mem_cons_self _ _)) hseg hchunk
    exact ih (fallbackStep st part) (fun p hp2 => hp p (List.mem_cons_of_mem _ hp2)) step.1 step.2

/-- Claim C5, amended: the fallback always wraps its output in the two
cover cards (first and last, both with empty content), every middle
element is a Standard segment, and a middle's content is empty, or a
single input paragraph (possibly exceeding the bound), or of length at
most `MAX_CHARS + 2` (the bound plus one blank-line separator). -/
theorem C5_amended (text : List Char) :
    (splitTextIntoCardsFallback text).head? = some coverStart ∧
    (splitTextIntoCardsFallback text).getLast? = some coverEnd ∧
    ∀ seg ∈ ((splitTextIntoCardsFallback text).drop 1).dropLast,
      middleOk ((splitParas text).filter (fun t => 0 < (jsTrim t).length)) seg := by
  unfold splitTextIntoCardsFallback
  set paras := (splitParas text).filter (fun t => 0 < (jsTrim t).length) with hparas
  have base := fallback_foldl_inv paras paras ⟨[coverStart], [], "Note Sequence".data, 1⟩
    (fun p hp => hp)
    ⟨[], rfl, by intro seg hm; exact absurd hm (List.not_mem_nil _)⟩ (Or.inl rfl)
  set st := paras.foldl fallbackStep ⟨[coverStart], [], "Note Sequence".data, 1⟩ with hstdef
  obtain ⟨⟨tail, hseg, htail⟩, hchunk⟩ := base
  have hsegs : ∃ tail2, (if st.currentChunk ≠ [] then st.segments ++ [flushSeg st]
        else st.segments) = coverStart :: tail2 ∧ ∀ seg ∈ tail2, middleOk paras seg := by
    by_cases hch : st.currentChunk ≠ []
    · rw [if_pos hch]
      refine ⟨tail ++ [flushSeg st], by rw [hseg]; rfl, ?_⟩
      intro seg hm
      rcases List.mem_append.mp hm with hm | hm
      · exact htail seg hm
      · rw [List.mem_singleton.mp hm]
        exact ⟨rfl, hchunk⟩
    · rw [if_neg hch]
      exact ⟨tail, hseg, htail⟩
  obtain ⟨tail2, hseg2, htail2⟩ := hsegs
  show ((if st.currentChunk ≠ [] then st.segments ++ [flushSeg st] else st.segments) ++
      [coverEnd]).head? = some coverStart ∧
    ((if st.currentChunk ≠ [] then st.segments ++ [flushSeg st] else st.segments) ++
      [coverEnd]).getLast? = some coverEnd ∧
    ∀ seg ∈ (List.drop 1
        ((if st.currentChunk ≠ [] then st.segments ++ [flushSeg st] else st.segments) ++
          [coverEnd])).dropLast,
      middleOk paras seg
  rw [hseg2]
  refine ⟨rfl, ?_, ?_⟩
  · exact List.getLast?_concat _
  · intro seg hm
    simp only [List.cons_append, List.drop_succ_cons, List.drop_zero] at hm
    rw [List.dropLast_concat] at hm
    exact htail2 seg hm

end TextCut

namespace TextCut

/-! ### C1: run-list invariants of the parser and updater -/

/-- Adjacent runs have different boldness. -/
def neBold (a b : TextSegment) : Prop := a.bold ≠ b.bold

theorem chain_neBold_reverse (l : List TextSegment) :
    List.Chain' neBold l.reverse ↔ List.Chain' neBold l := by
  rw [List.chain'_reverse]
  constructor
  · intro h
    exact h.imp (fun a b hab => Ne.symm hab)
  · intro h
    exact h.imp (fun a b hab => Ne.symm hab)

theorem pushSeg_chain (acc : List TextSegment) (t : List Char) (b : Bool)
    (h : List.Chain' neBold acc) : List.Chain' neBold (pushSeg acc t b) := by
  by_cases ht : t = []
  · simpa [pushSeg, ht] using h
  · cases acc with
    | nil => simp [pushSeg, ht]
    | cons last rest =>
      by_cases hb : last.bold = b
      · have hps : pushSeg (last :: rest) t b = ⟨last.text ++ t, b⟩ :: rest := by
          simp [pushSeg, ht, hb]
        rw [hps]
        rw [List.chain'_cons'] at h ⊢
        refine ⟨?_, h.2⟩
        intro y hy
        have := h.1 y hy
        simpa [neBold, hb] using this
      · have hps : pushSeg (last :: rest) t b = ⟨t, b⟩ :: last :: rest := by
          simp [pushSeg, ht, hb]
        rw [hps]
        rw [List.chain'_cons]
        exact ⟨fun hh => hb hh.symm, h⟩

theorem pushSeg_nonempty (acc : List TextSegment) (t : List Char) (b : Bool)
    (h : ∀ s ∈ acc, s.text ≠ []) : ∀ s ∈ pushSeg acc t b, s.text ≠ [] := by
  by_cases ht : t = []
  · simpa [pushSeg, ht] using h
  · cases acc with
    | nil =>
      intro s hs
      simp [pushSeg, ht] at hs
      rw [hs]
      exact ht
    | cons last rest =>
      by_cases hb : last.bold = b
      · have hps : pushSeg (last :: rest) t b = ⟨last.text ++ t, b⟩ :: rest := by
          simp [pushSeg, ht, hb]
        rw [hps]
        intro s hs
        rcases List.mem_cons.mp hs with hs | hs
        · rw [hs]
          simp only [ne_eq, List.append_eq_nil, not_and]
          intro hlast
          exact absurd hlast (h last (by simp))
        · exact h s (List.mem_cons_of_mem _ hs)
      · have hps : pushSeg (last :: rest) t b = ⟨t, b⟩ :: last :: rest := by
          simp [pushSeg, ht, hb]
        rw [hps]
        intro s hs
        rcases List.mem_cons.mp hs with hs | hs
        · rw [hs]; exact ht
        · exact h s hs

theorem buildSegmentsGo_chain : ∀ (t : List Char) (bold : Bool) (buffer : List Char)
    (acc : List TextSegment), List.Chain' neBold acc →
    List.Chain' neBold (buildSegmentsGo t bold buffer acc) := by
  intro t bold buffer acc
  induction t, bold, buffer, acc using buildSegmentsGo.induct with
  | case1 rest bold buffer acc ih =>
    intro h
    rw [buildSegmentsGo]
    exact ih (pushSeg_chain acc buffer bold h)
  | case2 c rest bold buffer acc hg ih =>
    intro h
    rw [buildSegmentsGo_cons_of_step c rest bold buffer acc hg]
    exact ih h
  | case3 bold buffer acc =>
    intro h
    rw [buildSegmentsGo]
    exact (chain_neBold_reverse _).mpr (pushSeg_chain acc buffer bold h)

theorem buildSegmentsGo_nonempty : ∀ (t : List Char) (bold : Bool) (buffer : List Char)
    (acc : List TextSegment), (∀ s ∈ acc, s.text ≠ []) →
    ∀ s ∈ buildSegmentsGo t bold buffer acc, s.text ≠ [] := by
  intro t bold buffer acc
  induction t, bold, buffer, acc using buildSegmentsGo.induct with
  | case1 rest bold buffer acc ih =>
    intro h
    rw [buildSegmentsGo]
    exact ih (pushSeg_nonempty acc buffer bold h)
  | case2 c rest bold buffer acc hg ih =>
    intro h
    rw [buildSegmentsGo_cons_of_step c rest bold buffer acc hg]
    exact ih h
  | case3 bold buffer acc =>
    intro h s hs
    rw [buildSegmentsGo] at hs
    exact pushSeg_nonempty acc buffer bold h s (List.mem_reverse.mp hs)

theorem buildSegments_chain (t : List Char) : List.Chain' neBold (buildSegments t) :=
  buildSegmentsGo_chain t false [] [] (by simp)

theorem buildSegments_nonempty (t : List Char) : ∀ s ∈ buildSegments t, s.text ≠ [] :=
  buildSegmentsGo_nonempty t false [] [] (by simp)

theorem mem_concatTexts_of_mem (segs : List TextSegment) (seg : TextSegment) (c : Char)
    (hseg : seg ∈ segs) (hc : c ∈ seg.text) : c ∈ concatTexts segs := by
  simp only [concatTexts, List.mem_flatten, List.mem_map]
  exact ⟨seg.text, ⟨seg, hseg, rfl⟩, hc⟩

theorem updateSegmentsBoldGo_chain : ∀ (segs : List TextSegment) (s f : Nat) (b : Bool)
    (off : Nat) (acc : List TextSegment), List.Chain' neBold acc →
    List.Chain' neBold (updateSegmentsBoldGo segs s f b off acc) := by
  intro segs s f b
  induction segs with
  | nil =>
    intro off acc h
    simpa [updateSegmentsBoldGo] using (chain_neBold_reverse _).mpr h
  | cons seg rest ih =>
    intro off acc h
    simp only [updateSegmentsBoldGo]
    split
    · exact ih _ _ (pushSeg_chain _ _ _ h)
    · refine ih _ _ ?_
      split
      · refine pushSeg_chain _ _ _ (pushSeg_chain _ _ _ ?_)
        split
        · exact pushSeg_chain _ _ _ h
        · exact h
      · refine pushSeg_chain _ _ _ ?_
        split
        · exact pushSeg_chain _ _ _ h
        · exact h

theorem updateSegmentsBoldGo_nonempty : ∀ (segs : List TextSegment) (s f : Nat) (b : Bool)
    (off : Nat) (acc : List TextSegment), (∀ x ∈ acc, x.text ≠ []) →
    ∀ x ∈ updateSegmentsBoldGo segs s f b off acc, x.text ≠ [] := by
  intro segs s f b
  induction segs with
  | nil =>
    intro off acc h x hx
    simp only [updateSegmentsBoldGo] at hx
    exact h x (List.mem_reverse.mp hx)
  | cons seg rest ih =>
    intro off acc h
    simp only [updateSegmentsBoldGo]
    split
    · exact ih _ _ (pushSeg_nonempty _ _ _ h)
    · refine ih _ _ ?_
      split
      · refine pushSeg_nonempty _ _ _ (pushSeg_nonempty _ _ _ ?_)
        split
        · exact pushSeg_nonempty _ _ _ h
        · exact h
      · refine pushSeg_nonempty _ _ _ ?_
        split
        · exact pushSeg_nonempty _ _ _ h
        · exact h

theorem updateSegmentsBold_chain (segs : List TextSegment) (s f : Nat) (b : Bool) :
    List.Chain' neBold (updateSegmentsBold segs s f b) :=
  updateSegmentsBoldGo_chain segs s f b 0 [] (by simp)

theorem updateSegmentsBold_nonempty (segs : List TextSegment) (s f : Nat) (b : Bool) :
    ∀ x ∈ updateSegmentsBold segs s f b, x.text ≠ [] :=
  updateSegmentsBoldGo_nonempty segs s f b 0 [] (by simp)

end TextCut

namespace TextCut

theorem buildSegmentsGo_append_starfree : ∀ (t : List Char), '*' ∉ t → ∀ (rest : List Char)
    (bold : Bool) (buffer : List Char) (acc : List TextSegment),
    buildSegmentsGo (t ++ rest) bold buffer acc = buildSegmentsGo rest bold (buffer ++ t) acc := by
  intro t
  induction t with
  | nil =>
    intro _ rest bold buffer acc
    simp
  | cons c t' ih =>
    intro h rest bold buffer acc
    have hc : c ≠ '*' := fun hh => h (by rw [hh]; exact List.mem_cons_self _ _)
    rw [List.cons_append, buildSegmentsGo_cons_of_step c (t' ++ rest) bold buffer acc
      (fun r' h1 _ => hc h1)]
    rw [ih (fun hm => h (List.mem_cons_of_mem _ hm)) rest bold (buffer ++ [c]) acc]
    have : (buffer ++ [c]) ++ t' = buffer ++ c :: t' := by simp
    rw [this]

theorem pushSeg_of_head_ne (acc : List TextSegment) (t : List Char) (b : Bool)
    (ht : t ≠ []) (hh : ∀ a ∈ acc.head?, a.bold = !b) :
    pushSeg acc t b = ⟨t, b⟩ :: acc := by
  cases acc with
  | nil => simp [pushSeg, ht]
  | cons last rest =>
    have hne : last.bold ≠ b := by
      have := hh last (by simp)
      rw [this]
      simp
    simp [pushSeg, ht, hne]

/-- Parsing the rendering of a star-free canonical run list recovers the
run list (relative to an accumulator whose head has opposite boldness). -/
theorem parse_renderR : ∀ (segs : List TextSegment) (acc : List TextSegment),
    List.Chain' neBold segs →
    (∀ x ∈ segs, x.text ≠ []) →
    (∀ x ∈ segs, '*' ∉ x.text) →
    (∀ a ∈ acc.head?, ∀ x ∈ segs.head?, a.bold = !x.bold) →
    buildSegmentsGo ((segs.map wrapSeg).flatten) false [] acc = acc.reverse ++ segs
  | [], acc => by
    intro _ _ _ _
    simp [buildSegmentsGo, pushSeg]
  | seg :: rest, acc => by
    intro hchain hne hsf hacc
    obtain ⟨tx, bl⟩ := seg
    have htx : tx ≠ [] := hne ⟨tx, bl⟩ (List.mem_cons_self _ _)
    have hsftx : '*' ∉ tx := hsf ⟨tx, bl⟩ (List.mem_cons_self _ _)
    cases bl with
    | false =>
      have hw : wrapSeg ⟨tx, false⟩ = tx := by simp [wrapSeg, htx]
      rw [List.map_cons, List.flatten_cons, hw]
      rw [buildSegmentsGo_append_starfree tx hsftx _ false [] acc]
      rw [List.nil_append]
      have hpush : pushSeg acc tx false = ⟨tx, false⟩ :: acc :=
        pushSeg_of_head_ne acc tx false htx (by
          intro a ha
          have := hacc a ha ⟨tx, false⟩ (by simp)
          simpa using this)
      cases rest with
      | nil =>
        rw [show ((List.map wrapSeg []).flatten : List Char) = [] from rfl, buildSegmentsGo,
          hpush]
        simp
      | cons s2 rest2 =>
        have hs2 : s2.bold = true := by
          have hcc := (List.chain'_cons.mp hchain).1
          simp only [neBold] at hcc
          cases hb2 : s2.bold
          · exact absurd hb2.symm hcc
          · rfl
        obtain ⟨tx2, bl2⟩ := s2
        simp only at hs2
        subst hs2
        have htx2 : tx2 ≠ [] := hne ⟨tx2, true⟩ (by simp)
        have hsftx2 : '*' ∉ tx2 := hsf ⟨tx2, true⟩ (by simp)
        have hw2 : wrapSeg ⟨tx2, true⟩ = star2 ++ tx2 ++ star2 := by simp [wrapSeg, htx2]
        rw [List.map_cons, List.flatten_cons, hw2]
        have hshape : (star2 ++ tx2 ++ star2) ++ (List.map wrapSeg rest2).flatten =
            '*' :: '*' :: (tx2 ++ ('*' :: '*' :: (List.map wrapSeg rest2).flatten)) := by
          simp [star2, List.append_assoc]
        rw [hshape]
        rw [show buildSegmentsGo ('*' :: '*' :: (tx2 ++ ('*' :: '*' ::
            (List.map wrapSeg rest2).flatten))) false tx acc =
          buildSegmentsGo (tx2 ++ ('*' :: '*' :: (List.map wrapSeg rest2).flatten)) true []
            (pushSeg acc tx false) from rfl]
        rw [hpush]
        rw [buildSegmentsGo_append_starfree tx2 hsftx2 _ true [] _]
        rw [List.nil_append]
        rw [show buildSegmentsGo ('*' :: '*' :: (List.map wrapSeg rest2).flatten) true tx2
            (⟨tx, false⟩ :: acc) =
          buildSegmentsGo ((List.map wrapSeg rest2).flatten) false []
            (pushSeg (⟨tx, false⟩ :: acc) tx2 true) from rfl]
        have hpush2 : pushSeg (⟨tx, false⟩ :: acc) tx2 true =
            ⟨tx2, true⟩ :: ⟨tx, false⟩ :: acc :=
          pushSeg_of_head_ne _ tx2 true htx2 (by intro a ha; simp at ha; rw [← ha]; simp)
        rw [hpush2]
        have hch2 : ∀ y ∈ rest2.head?, neBold ⟨tx2, true⟩ y :=
          (List.chain'_cons'.mp (List.chain'_cons.mp hchain).2).1
        have hrec := parse_renderR rest2 (⟨tx2, true⟩ :: ⟨tx, false⟩ :: acc)
          ((List.chain'_cons'.mp (List.chain'_cons.mp hchain).2).2)
          (fun x hx => hne x (by simp [hx]))
          (fun x hx => hsf x (by simp [hx]))
          (by
            intro a ha x hx
            simp at ha
            rw [← ha]
            have hnb := hch2 x hx
            simp only [neBold] at hnb
            cases hbx : x.bold
            · simp
            · rw [hbx] at hnb
              exact absurd rfl hnb)
        rw [hrec]
        simp
    | true =>
      have hw : wrapSeg ⟨tx, true⟩ = star2 ++ tx ++ star2 := by simp [wrapSeg, htx]
      rw [List.map_cons, List.flatten_cons, hw]
      have hshape : (star2 ++ tx ++ star2) ++ (List.map wrapSeg rest).flatten =
          '*' :: '*' :: (tx ++ ('*' :: '*' :: (List.map wrapSeg rest).flatten)) := by
        simp [star2, List.append_assoc]
      rw [hshape]
      rw [show buildSegmentsGo ('*' :: '*' :: (tx ++ ('*' :: '*' ::
          (List.map wrapSeg rest).flatten))) false [] acc =
        buildSegmentsGo (tx ++ ('*' :: '*' :: (List.map wrapSeg rest).flatten)) true []
          (pushSeg acc [] false) from rfl]
      rw [show pushSeg acc [] false = acc from by simp [pushSeg]]
      rw [buildSegmentsGo_append_starfree tx hsftx _ true [] acc]
      rw [List.nil_append]
      rw [show buildSegmentsGo ('*' :: '*' :: (List.map wrapSeg rest).flatten) true tx acc =
        buildSegmentsGo ((List.map wrapSeg rest).flatten) false [] (pushSeg acc tx true)
        from rfl]
      have hpush : pushSeg acc tx true = ⟨tx, true⟩ :: acc :=
        pushSeg_of_head_ne acc tx true htx (by
          intro a ha
          have := hacc a ha ⟨tx, true⟩ (by simp)
          simpa using this)
      rw [hpush]
      have hch1 : ∀ y ∈ rest.head?, neBold ⟨tx, true⟩ y :=
        (List.chain'_cons'.mp hchain).1
      have hrec := parse_renderR rest (⟨tx, true⟩ :: acc)
        ((List.chain'_cons'.mp hchain).2)
        (fun x hx => hne x (by simp [hx]))
        (fun x hx => hsf x (by simp [hx]))
        (by
          intro a ha x hx
          simp at ha
          rw [← ha]
          have hnb := hch1 x hx
          simp only [neBold] at hnb
          cases hbx : x.bold
          · simp
          · rw [hbx] at hnb
            exact absurd rfl hnb)
      rw [hrec]
      simp

/-- Parsing the rendering of a star-free canonical run list is the
identity. -/
theorem buildSegments_renderSegments (segs : List TextSegment)
    (hchain : List.Chain' neBold segs)
    (hne : ∀ x ∈ segs, x.text ≠ [])
    (hsf : ∀ x ∈ segs, '*' ∉ x.text) :
    buildSegments (renderSegments segs) = segs := by
  rw [renderSegments_eq_flatten]
  simpa [buildSegments] using parse_renderR segs [] hchain hne hsf (by simp)

end TextCut

namespace TextCut

theorem p2tGo_cons_of_step (c : Char) (rest : List Char) (p count i : Nat)
    (h : ∀ r' : List Char, c = '*' → rest = '*' :: r' → False) :
    plainIndexToTextIndexGo (c :: rest) p count i =
      if count = p then i else plainIndexToTextIndexGo rest p (count + 1) (i + 1) := by
  conv_lhs => rw [plainIndexToTextIndexGo.eq_def]
  split
  · next r heq =>
    rw [List.cons.injEq] at heq
    exact (h r heq.1 heq.2).elim
  · next c' r' heq =>
    rw [List.cons.injEq] at heq
    obtain ⟨h1, h2⟩ := heq
    subst h1; subst h2
    rfl
  · next heq => exact absurd heq (by simp)

theorem p2tGo_i_shift : ∀ (t : List Char) (p count i : Nat),
    plainIndexToTextIndexGo t p count i = i + plainIndexToTextIndexGo t p count 0 := by
  intro t
  induction t using plainChars.induct with
  | case1 rest ih =>
    intro p count i
    rw [show plainIndexToTextIndexGo ('*' :: '*' :: rest) p count i =
        plainIndexToTextIndexGo rest p count (i + 2) from rfl,
      show plainIndexToTextIndexGo ('*' :: '*' :: rest) p count 0 =
        plainIndexToTextIndexGo rest p count 2 from rfl,
      ih p count (i + 2), ih p count 2]
    omega
  | case2 c rest h ih =>
    intro p count i
    rw [p2tGo_cons_of_step c rest p count i h, p2tGo_cons_of_step c rest p count 0 h]
    by_cases hc : count = p
    · simp [hc]
    · rw [if_neg hc, if_neg hc, ih p (count + 1) (i + 1), ih p (count + 1) 1]
      omega
  | case3 =>
    intro p count i
    simp [plainIndexToTextIndexGo]

theorem p2tGo_count_shift : ∀ (t : List Char) (p count : Nat), count ≤ p →
    plainIndexToTextIndexGo t p count 0 = plainIndexToTextIndexGo t (p - count) 0 0 := by
  intro t
  induction t using plainChars.induct with
  | case1 rest ih =>
    intro p count hc
    rw [show plainIndexToTextIndexGo ('*' :: '*' :: rest) p count 0 =
        plainIndexToTextIndexGo rest p count 2 from rfl,
      show plainIndexToTextIndexGo ('*' :: '*' :: rest) (p - count) 0 0 =
        plainIndexToTextIndexGo rest (p - count) 0 2 from rfl,
      p2tGo_i_shift rest p count 2, p2tGo_i_shift rest (p - count) 0 2, ih p count hc]
  | case2 c rest h ih =>
    intro p count hc
    rw [p2tGo_cons_of_step c rest p count 0 h, p2tGo_cons_of_step c rest (p - count) 0 0 h]
    by_cases hcp : count = p
    · rw [if_pos hcp, if_pos (by omega)]
    · rw [if_neg hcp, if_neg (by omega)]
      rw [p2tGo_i_shift rest p (count + 1) 1, p2tGo_i_shift rest (p - count) 1 1]
      rw [ih p (count + 1) (by omega), ih (p - count) 1 (by omega)]
      congr 2
  | case3 =>
    intro p count _
    simp [plainIndexToTextIndexGo]

theorem getD_buildIndexMapGo_p2t : ∀ (t : List Char) (p : Nat),
    p ≤ (plainChars t).length → ∀ (k d : Nat),
    (buildIndexMapGo t k).getD (plainIndexToTextIndex t p) d = k + p := by
  intro t
  induction t using plainChars.induct with
  | case1 rest ih =>
    intro p hp k d
    have hp2t : plainIndexToTextIndex ('*' :: '*' :: rest) p =
        plainIndexToTextIndex rest p + 1 + 1 := by
      rw [plainIndexToTextIndex, show plainIndexToTextIndexGo ('*' :: '*' :: rest) p 0 0 =
          plainIndexToTextIndexGo rest p 0 2 from rfl, p2tGo_i_shift rest p 0 2]
      rw [plainIndexToTextIndex]
      omega
    rw [hp2t, show buildIndexMapGo ('*' :: '*' :: rest) k =
        k :: k :: buildIndexMapGo rest k from rfl]
    rw [List.getD_cons_succ, List.getD_cons_succ]
    exact ih p (by rwa [plainChars_marker] at hp) k d
  | case2 c rest h ih =>
    intro p hp k d
    have hpl : plainChars (c :: rest) = c :: plainChars rest := plainChars_cons_of_step c rest h
    rw [buildIndexMapGo_cons_of_step c rest k h]
    by_cases hp0 : p = 0
    · subst hp0
      have hz : plainIndexToTextIndex (c :: rest) 0 = 0 := by
        rw [plainIndexToTextIndex, p2tGo_cons_of_step c rest 0 0 0 h]
        simp
      rw [hz]
      simp
    · have hp1 : 1 ≤ p := by omega
      have hpt : plainIndexToTextIndex (c :: rest) p =
          plainIndexToTextIndex rest (p - 1) + 1 := by
        rw [plainIndexToTextIndex, p2tGo_cons_of_step c rest p 0 0 h,
          if_neg (by omega), p2tGo_i_shift rest p 1 1, p2tGo_count_shift rest p 1 hp1]
        rw [plainIndexToTextIndex]
        omega
      rw [hpt, List.getD_cons_succ]
      have hple : p - 1 ≤ (plainChars rest).length := by
        rw [hpl] at hp
        simp only [List.length_cons] at hp
        omega
      rw [ih (p - 1) hple (k + 1) d]
      omega
  | case3 =>
    intro p hp k d
    have hp0 : p = 0 := by
      simpa [plainChars] using hp
    subst hp0
    simp [plainIndexToTextIndex, plainIndexToTextIndexGo, buildIndexMapGo]

theorem getD_buildIndexMap_p2t (t : List Char) (p d : Nat)
    (hp : p ≤ (plainChars t).length) :
    (buildIndexMap t).getD (plainIndexToTextIndex t p) d = p := by
  simpa using getD_buildIndexMapGo_p2t t p hp 0 d

theorem p2t_strict_mono : ∀ (t : List Char) (p q : Nat), p < q →
    q ≤ (plainChars t).length →
    plainIndexToTextIndex t p < plainIndexToTextIndex t q := by
  intro t
  induction t using plainChars.induct with
  | case1 rest ih =>
    intro p q hpq hq
    have e1 : plainIndexToTextIndex ('*' :: '*' :: rest) p =
        plainIndexToTextIndex rest p + 2 := by
      rw [plainIndexToTextIndex, show plainIndexToTextIndexGo ('*' :: '*' :: rest) p 0 0 =
          plainIndexToTextIndexGo rest p 0 2 from rfl, p2tGo_i_shift rest p 0 2,
        plainIndexToTextIndex]
      omega
    have e2 : plainIndexToTextIndex ('*' :: '*' :: rest) q =
        plainIndexToTextIndex rest q + 2 := by
      rw [plainIndexToTextIndex, show plainIndexToTextIndexGo ('*' :: '*' :: rest) q 0 0 =
          plainIndexToTextIndexGo rest q 0 2 from rfl, p2tGo_i_shift rest q 0 2,
        plainIndexToTextIndex]
      omega
    rw [e1, e2]
    have := ih p q hpq (by rwa [plainChars_marker] at hq)
    omega
  | case2 c rest h ih =>
    intro p q hpq hq
    have hpl : plainChars (c :: rest) = c :: plainChars rest := plainChars_cons_of_step c rest h
    have hq1 : 1 ≤ q := by omega
    have eq2 : plainIndexToTextIndex (c :: rest) q =
        plainIndexToTextIndex rest (q - 1) + 1 := by
      rw [plainIndexToTextIndex, p2tGo_cons_of_step c rest q 0 0 h, if_neg (by omega),
        p2tGo_i_shift rest q 1 1, p2tGo_count_shift rest q 1 hq1, plainIndexToTextIndex]
      omega
    by_cases hp0 : p = 0
    · subst hp0
      have e1 : plainIndexToTextIndex (c :: rest) 0 = 0 := by
        rw [plainIndexToTextIndex, p2tGo_cons_of_step c rest 0 0 0 h]
        simp
      rw [e1, eq2]
      omega
    · have e1 : plainIndexToTextIndex (c :: rest) p =
          plainIndexToTextIndex rest (p - 1) + 1 := by
        rw [plainIndexToTextIndex, p2tGo_cons_of_step c rest p 0 0 h, if_neg (by omega),
          p2tGo_i_shift rest p 1 1, p2tGo_count_shift rest p 1 (by omega),
          plainIndexToTextIndex]
        omega
      rw [e1, eq2]
      have hqle : q - 1 ≤ (plainChars rest).length := by
        rw [hpl] at hq
        simp only [List.length_cons] at hq
        omega
      have := ih (p - 1) (q - 1) (by omega) hqle
      omega
  | case3 =>
    intro p q hpq hq
    simp [plainChars] at hq
    omega

theorem buildIndexMapGo_le_plain : ∀ (t : List Char) (k : Nat),
    ∀ x ∈ buildIndexMapGo t k, x ≤ k + (plainChars t).length := by
  intro t
  induction t using plainChars.induct with
  | case1 rest ih =>
    intro k x hx
    rw [show buildIndexMapGo ('*' :: '*' :: rest) k =
      k :: k :: buildIndexMapGo rest k from rfl] at hx
    rw [plainChars_marker]
    simp only [List.mem_cons] at hx
    rcases hx with h1 | h1 | h1
    · omega
    · omega
    · exact ih k x h1
  | case2 c rest h ih =>
    intro k x hx
    rw [buildIndexMapGo_cons_of_step c rest k h] at hx
    rw [plainChars_cons_of_step c rest h]
    simp only [List.mem_cons, List.length_cons] at hx ⊢
    rcases hx with h1 | h1
    · omega
    · have := ih (k + 1) x h1
      omega
  | case3 =>
    intro k x hx
    simp [buildIndexMapGo] at hx
    simp [plainChars, hx]

theorem getD_buildIndexMap_le_plain (t : List Char) (j d : Nat)
    (hd : d ≤ (plainChars t).length) :
    (buildIndexMap t).getD j d ≤ (plainChars t).length := by
  by_cases hj : j < (buildIndexMap t).length
  · rw [List.getD_eq_get _ _ hj]
    have hmem : (buildIndexMap t).get ⟨j, hj⟩ ∈ buildIndexMap t := List.get_mem _ _ hj
    have := buildIndexMapGo_le_plain t 0 _ hmem
    simpa using this
  · rw [List.getD_eq_default _ _ (le_of_not_lt hj)]
    exact hd

theorem getD_buildIndexMap_self (t : List Char) (s : Nat) :
    (buildIndexMap t).getD s ((buildIndexMap t).getD s 0) = (buildIndexMap t).getD s 0 := by
  by_cases hs : s < (buildIndexMap t).length
  · rw [List.getD_eq_get _ _ hs, List.getD_eq_get _ _ hs]
  · rw [List.getD_eq_default _ _ (le_of_not_lt hs)]

end TextCut

namespace TextCut

theorem boldAt_cons (seg : TextSegment) (rest : List TextSegment) (p : Nat) :
    boldAt (seg :: rest) p =
      if p < seg.text.length then seg.bold else boldAt rest (p - seg.text.length) := rfl

theorem boldAt_cons_lt (seg : TextSegment) (rest : List TextSegment) (p : Nat)
    (h : p < seg.text.length) : boldAt (seg :: rest) p = seg.bold := by
  rw [boldAt_cons, if_pos h]

theorem boldAt_cons_ge (seg : TextSegment) (rest : List TextSegment) (p : Nat)
    (h : seg.text.length ≤ p) :
    boldAt (seg :: rest) p = boldAt rest (p - seg.text.length) := by
  rw [boldAt_cons, if_neg (Nat.not_lt.mpr h)]

theorem boldAt_ge_length : ∀ (l : List TextSegment) (q : Nat),
    (concatTexts l).length ≤ q → boldAt l q = false
  | [], _, _ => rfl
  | seg :: rest, q, h => by
    rw [concatTexts_cons, List.length_append] at h
    rw [boldAt_cons_ge _ _ _ (by omega)]
    exact boldAt_ge_length rest _ (by omega)

/-- `boldAt` distributes over append, splitting at the concatenated length. -/
theorem boldAt_append : ∀ (a b : List TextSegment) (p : Nat),
    boldAt (a ++ b) p =
      if p < (concatTexts a).length then boldAt a p
      else boldAt b (p - (concatTexts a).length)
  | [], b, p => by simp [concatTexts]
  | seg :: rest, b, p => by
    rw [List.cons_append, concatTexts_cons, List.length_append]
    by_cases h : p < seg.text.length
    · rw [boldAt_cons_lt _ _ _ h, if_pos (by omega), boldAt_cons_lt _ _ _ h]
    · have h2 : seg.text.length ≤ p := Nat.le_of_not_lt h
      rw [boldAt_cons_ge _ _ _ h2, boldAt_append rest b (p - seg.text.length)]
      by_cases h3 : p - seg.text.length < (concatTexts rest).length
      · rw [if_pos h3, if_pos (by omega), boldAt_cons_ge _ _ _ h2]
      · rw [if_neg h3, if_neg (by omega)]
        congr 1
        omega

theorem boldAt_singleton (t : List Char) (bb : Bool) (r : Nat) :
    boldAt [⟨t, bb⟩] r = if r < t.length then bb else false := by
  simp only [boldAt]

/-- Coalescing two same-bold runs does not change the positional boldness. -/
theorem boldAt_merge (ltx t : List Char) (bb : Bool) (r : Nat) :
    boldAt [⟨ltx ++ t, bb⟩] r = boldAt [⟨ltx, bb⟩, ⟨t, bb⟩] r := by
  simp only [boldAt, List.length_append]
  split_ifs <;> first | rfl | (exfalso; omega)

/-- `pushSeg` behaves like appending one run, `boldAt`-wise. -/
theorem boldAt_reverse_pushSeg (acc : List TextSegment) (t : List Char) (bb : Bool) (q : Nat) :
    boldAt (pushSeg acc t bb).reverse q = boldAt (acc.reverse ++ [⟨t, bb⟩]) q := by
  by_cases ht : t = []
  · subst ht
    rw [show pushSeg acc [] bb = acc from by simp [pushSeg]]
    rw [boldAt_append]
    by_cases hq : q < (concatTexts acc.reverse).length
    · rw [if_pos hq]
    · rw [if_neg hq, boldAt_ge_length _ _ (Nat.le_of_not_lt hq), boldAt_singleton]
      simp
  · cases acc with
    | nil =>
      rw [show pushSeg [] t bb = [⟨t, bb⟩] from by simp [pushSeg, ht]]
      rfl
    | cons last rest =>
      by_cases hb : last.bold = bb
      · rw [show pushSeg (last :: rest) t bb = ⟨last.text ++ t, bb⟩ :: rest from by
          simp [pushSeg, ht, hb]]
        rw [List.reverse_cons, List.reverse_cons, List.append_assoc, boldAt_append,
          boldAt_append]
        split_ifs with h
        · rfl
        · rw [boldAt_merge]
          have hl : last = ⟨last.text, bb⟩ := by rw [← hb]
          rw [← hl]
          rfl
      · rw [show pushSeg (last :: rest) t bb = ⟨t, bb⟩ :: last :: rest from by
          simp [pushSeg, ht, hb]]
        rw [List.reverse_cons]

/-- A guarded `pushSeg` whose guard failing forces empty text is an
unconditional `pushSeg`. -/
theorem ite_pushSeg (Y : List TextSegment) (t : List Char) (bb : Bool) (c : Prop)
    [Decidable c] (h : ¬c → t = []) :
    (if c then pushSeg Y t bb else Y) = pushSeg Y t bb := by
  split
  · rfl
  · next hc =>
    rw [h hc]
    simp [pushSeg]

end TextCut

namespace TextCut

/-- Positional boldness after the update loop: positions inside the
already-emitted accumulator keep its boldness, positions inside the
remaining runs get `b` exactly on the plain range `[s, f)` (shifted by
`off`) and their old boldness elsewhere. -/
theorem boldAt_updateSegmentsBoldGo : ∀ (segs : List TextSegment) (s f : Nat) (b : Bool)
    (off : Nat) (acc : List TextSegment) (q : Nat), s ≤ f →
    boldAt (updateSegmentsBoldGo segs s f b off acc) q =
      if q < (concatTexts acc.reverse).length then boldAt acc.reverse q
      else if s ≤ q - (concatTexts acc.reverse).length + off ∧
          q - (concatTexts acc.reverse).length + off < f ∧
          q - (concatTexts acc.reverse).length < (concatTexts segs).length then b
      else boldAt segs (q - (concatTexts acc.reverse).length) := by
  intro segs s f b
  induction segs with
  | nil =>
    intro off acc q hsf
    rw [show updateSegmentsBoldGo [] s f b off acc = acc.reverse from rfl]
    by_cases hq : q < (concatTexts acc.reverse).length
    · rw [if_pos hq]
    · rw [if_neg hq, if_neg (by simp [concatTexts]),
        boldAt_ge_length _ _ (Nat.le_of_not_lt hq)]
      rfl
  | cons seg rest ih =>
    intro off acc q hsf
    simp only [updateSegmentsBoldGo]
    split
    · next hskip =>
      rw [ih (off + seg.text.length) _ q hsf]
      simp only [boldAt_reverse_pushSeg, boldAt_append, concatTexts_reverse_pushSeg,
        List.length_append, concatTexts_cons, boldAt_singleton]
      rw [boldAt_cons]
      split_ifs <;> first | rfl | (exfalso; omega) | (congr 1; omega)
    · next hno =>
      have hs1 : s < off + seg.text.length := by
        rcases Nat.lt_or_ge s (off + seg.text.length) with h1 | h1
        · exact h1
        · exact absurd (Or.inl h1) hno
      have hs2 : off < f := by
        rcases Nat.lt_or_ge off f with h2 | h2
        · exact h2
        · exact absurd (Or.inr h2) hno
      rw [ite_pushSeg acc (seg.text.take (max s off - off)) seg.bold (off < max s off)
          (fun h => by rw [show max s off - off = 0 from by omega, List.take_zero])]
      rw [ite_pushSeg _ (seg.text.drop (min f (off + seg.text.length) - off)) seg.bold
          (min f (off + seg.text.length) < off + seg.text.length)
          (fun h => by
            rw [show min f (off + seg.text.length) - off = seg.text.length from by omega,
              List.drop_length])]
      rw [ih (off + seg.text.length) _ q hsf]
      simp only [boldAt_reverse_pushSeg, boldAt_append, concatTexts_reverse_pushSeg,
        List.length_append, List.length_take, List.length_drop, concatTexts_cons,
        boldAt_singleton]
      rw [boldAt_cons]
      split_ifs <;> first | rfl | (exfalso; omega) | (congr 1; omega)

/-- Positional boldness after `updateSegmentsBold`: `b` on `[s, f)`
(within bounds), unchanged elsewhere. -/
theorem boldAt_updateSegmentsBold (segs : List TextSegment) (s f : Nat) (b : Bool) (q : Nat)
    (hsf : s ≤ f) :
    boldAt (updateSegmentsBold segs s f b) q =
      if s ≤ q ∧ q < f ∧ q < (concatTexts segs).length then b else boldAt segs q := by
  rw [updateSegmentsBold, boldAt_updateSegmentsBoldGo segs s f b 0 [] q hsf]
  simp only [List.reverse_nil, concatTexts_nil, List.length_nil, Nat.sub_zero, Nat.add_zero]
  rw [if_neg (by omega)]

end TextCut

namespace TextCut

/-- The `hasUnbold` scan finds exactly the plain positions of non-bold
characters inside a non-empty selection range. -/
theorem hasUnboldGo_iff_boldAt : ∀ (segs : List TextSegment) (off ps pe : Nat),
    ps < pe → (∀ x ∈ segs, x.text ≠ []) →
    (hasUnboldGo segs off ps pe = true ↔
      ∃ q, ps ≤ q ∧ q < pe ∧ off ≤ q ∧ q < off + (concatTexts segs).length ∧
        boldAt segs (q - off) = false) := by
  intro segs
  induction segs with
  | nil =>
    intro off ps pe _ _
    constructor
    · intro h
      exact absurd h (by rw [show hasUnboldGo [] off ps pe = false from rfl]; simp)
    · rintro ⟨q, _, _, h3, h4, _⟩
      rw [concatTexts_nil] at h4
      simp only [List.length_nil, Nat.add_zero] at h4
      omega
  | cons seg rest ih =>
    intro off ps pe hlt hne
    have hL : 0 < seg.text.length := List.length_pos.mpr (hne seg (List.mem_cons_self _ _))
    have ihr := ih (off + seg.text.length) ps pe hlt
      (fun x hx => hne x (List.mem_cons_of_mem _ hx))
    rw [show hasUnboldGo (seg :: rest) off ps pe =
        (if off + seg.text.length ≤ ps ∨ off ≥ pe then
          hasUnboldGo rest (off + seg.text.length) ps pe
        else if seg.bold = false then true
        else hasUnboldGo rest (off + seg.text.length) ps pe) from rfl]
    by_cases hskip : off + seg.text.length ≤ ps ∨ off ≥ pe
    · rw [if_pos hskip, ihr]
      constructor
      · rintro ⟨q, h1, h2, h3, h4, h5⟩
        refine ⟨q, h1, h2, by omega, by rw [concatTexts_cons, List.length_append]; omega, ?_⟩
        rw [boldAt_cons_ge _ _ _ (by omega),
          show q - off - seg.text.length = q - (off + seg.text.length) from by omega]
        exact h5
      · rintro ⟨q, h1, h2, h3, h4, h5⟩
        have hq : off + seg.text.length ≤ q := by
          rcases hskip with hs | hs
          · omega
          · omega
        rw [concatTexts_cons, List.length_append] at h4
        refine ⟨q, h1, h2, hq, by omega, ?_⟩
        rw [boldAt_cons_ge _ _ _ (by omega),
          show q - off - seg.text.length = q - (off + seg.text.length) from by omega] at h5
        exact h5
    · rw [if_neg hskip]
      push_neg at hskip
      obtain ⟨hs1, hs2⟩ := hskip
      by_cases hb : seg.bold = false
      · rw [if_pos hb]
        constructor
        · intro _
          refine ⟨max ps off, le_max_left _ _, by omega, le_max_right _ _,
            by rw [concatTexts_cons, List.length_append]; omega, ?_⟩
          rw [boldAt_cons_lt _ _ _ (by omega)]
          exact hb
        · intro _
          rfl
      · rw [if_neg hb, ihr]
        constructor
        · rintro ⟨q, h1, h2, h3, h4, h5⟩
          refine ⟨q, h1, h2, by omega, by rw [concatTexts_cons, List.length_append]; omega, ?_⟩
          rw [boldAt_cons_ge _ _ _ (by omega),
            show q - off - seg.text.length = q - (off + seg.text.length) from by omega]
          exact h5
        · rintro ⟨q, h1, h2, h3, h4, h5⟩
          rw [concatTexts_cons, List.length_append] at h4
          by_cases hq : q < off + seg.text.length
          · rw [boldAt_cons_lt _ _ _ (by omega)] at h5
            exact absurd h5 hb
          · refine ⟨q, h1, h2, by omega, by omega, ?_⟩
            rw [boldAt_cons_ge _ _ _ (by omega),
              show q - off - seg.text.length = q - (off + seg.text.length) from by omega] at h5
            exact h5

/-- On a selection range of uniform boldness `u`, the scan answers `!u`:
the toggle always flips a uniform selection. -/
theorem hasUnbold_uniform (segs : List TextSegment) (ps pe : Nat) (u : Bool)
    (hne : ∀ x ∈ segs, x.text ≠ []) (hlt : ps < pe)
    (hpe : pe ≤ (concatTexts segs).length)
    (hu : ∀ p, ps ≤ p → p < pe → boldAt segs p = u) :
    hasUnboldGo segs 0 ps pe = !u := by
  cases u with
  | true =>
    show hasUnboldGo segs 0 ps pe = false
    cases h : hasUnboldGo segs 0 ps pe with
    | false => rfl
    | true =>
      obtain ⟨q, h1, h2, _, _, h5⟩ := (hasUnboldGo_iff_boldAt segs 0 ps pe hlt hne).mp h
      rw [Nat.sub_zero] at h5
      rw [hu q h1 h2] at h5
      exact absurd h5 (by simp)
  | false =>
    show hasUnboldGo segs 0 ps pe = true
    refine (hasUnboldGo_iff_boldAt segs 0 ps pe hlt hne).mpr
      ⟨ps, Nat.le_refl _, hlt, Nat.zero_le _, by omega, ?_⟩
    rw [Nat.sub_zero]
    exact hu ps (Nat.le_refl _) hlt

/-- Of two canonical run lists with the same text, the first run of the
second is no longer than that of the first. -/
theorem head_len_le (s1 : TextSegment) (r1 : List TextSegment) (s2 : TextSegment)
    (r2 : List TextSegment) (hch : List.Chain' neBold (s1 :: r1))
    (hne : ∀ x ∈ s1 :: r1, x.text ≠ [])
    (hcat : concatTexts (s1 :: r1) = concatTexts (s2 :: r2))
    (hba : ∀ q, q < (concatTexts (s1 :: r1)).length →
      boldAt (s1 :: r1) q = boldAt (s2 :: r2) q) :
    s2.text.length ≤ s1.text.length := by
  by_contra hlt
  push_neg at hlt
  have hL1 : 0 < s1.text.length := List.length_pos.mpr (hne s1 (List.mem_cons_self _ _))
  have hq : s1.text.length < (concatTexts (s1 :: r1)).length := by
    rw [hcat, concatTexts_cons, List.length_append]
    omega
  have h0 := hba s1.text.length hq
  rw [boldAt_cons_ge _ _ _ (Nat.le_refl _), Nat.sub_self,
    boldAt_cons_lt _ _ _ hlt] at h0
  have h00 := hba 0 (by
    rw [concatTexts_cons, List.length_append]
    omega)
  rw [boldAt_cons_lt _ _ _ hL1, boldAt_cons_lt _ _ _ (by omega)] at h00
  have hr1len : 0 < (concatTexts r1).length := by
    rw [concatTexts_cons, List.length_append] at hq
    omega
  cases r1 with
  | nil =>
    rw [concatTexts_nil] at hr1len
    simp at hr1len
  | cons h1 t1 =>
    have hh1 : h1.text ≠ [] := hne h1 (by simp)
    rw [boldAt_cons_lt _ _ _ (List.length_pos.mpr hh1)] at h0
    have hnb : neBold s1 h1 := (List.chain'_cons.mp hch).1
    simp only [neBold] at hnb
    exact hnb (by rw [h00, ← h0])

/-- Canonical extensionality: coalesced run lists with no empty runs are
determined by their concatenated text and positional boldness. -/
theorem canonical_ext : ∀ (a b : List TextSegment),
    List.Chain' neBold a → List.Chain' neBold b →
    (∀ x ∈ a, x.text ≠ []) → (∀ x ∈ b, x.text ≠ []) →
    concatTexts a = concatTexts b →
    (∀ q, q < (concatTexts a).length → boldAt a q = boldAt b q) →
    a = b
  | [], [], _, _, _, _, _, _ => rfl
  | [], s2 :: r2, _, _, _, hne2, hcat, _ => by
    rw [concatTexts_nil, concatTexts_cons] at hcat
    exact absurd (List.append_eq_nil.mp hcat.symm).1 (hne2 s2 (List.mem_cons_self _ _))
  | s1 :: r1, [], _, _, hne1, _, hcat, _ => by
    rw [concatTexts_cons, concatTexts_nil] at hcat
    exact absurd (List.append_eq_nil.mp hcat).1 (hne1 s1 (List.mem_cons_self _ _))
  | s1 :: r1, s2 :: r2, hch1, hch2, hne1, hne2, hcat, hba => by
    have hL1 : 0 < s1.text.length := List.length_pos.mpr (hne1 s1 (List.mem_cons_self _ _))
    have hle1 : s2.text.length ≤ s1.text.length := head_len_le s1 r1 s2 r2 hch1 hne1 hcat hba
    have hle2 : s1.text.length ≤ s2.text.length :=
      head_len_le s2 r2 s1 r1 hch2 hne2 hcat.symm
        (fun q hq => (hba q (by rw [hcat]; exact hq)).symm)
    have hlen : s1.text.length = s2.text.length := Nat.le_antisymm hle2 hle1
    rw [concatTexts_cons, concatTexts_cons] at hcat
    obtain ⟨ht, hcr⟩ := List.append_inj hcat hlen
    have hb : s1.bold = s2.bold := by
      have h0 := hba 0 (by
        rw [concatTexts_cons, List.length_append]
        omega)
      rwa [boldAt_cons_lt _ _ _ hL1, boldAt_cons_lt _ _ _ (by omega)] at h0
    have hrest : r1 = r2 :=
      canonical_ext r1 r2 (List.chain'_cons'.mp hch1).2 (List.chain'_cons'.mp hch2).2
        (fun x hx => hne1 x (List.mem_cons_of_mem _ hx))
        (fun x hx => hne2 x (List.mem_cons_of_mem _ hx)) hcr
        (fun q hq => by
          have hq2 := hba (s1.text.length + q) (by
            rw [concatTexts_cons, List.length_append]
            omega)
          rwa [boldAt_cons_ge _ _ _ (by omega), boldAt_cons_ge _ _ _ (by omega),
            show s1.text.length + q - s1.text.length = q from by omega,
            show s1.text.length + q - s2.text.length = q from by omega] at hq2)
    have hs : s1 = s2 := by
      obtain ⟨t1, b1⟩ := s1
      obtain ⟨t2, b2⟩ := s2
      simp only [TextSegment.mk.injEq]
      exact ⟨ht, hb⟩
    rw [hs, hrest]

end TextCut

namespace TextCut

/-- Master lemma for the amended C1: on canonical storage whose logical
text is star-free, a range selection whose plain projection `[ps, pe)` is
non-empty and uniformly bold or uniformly non-bold is restored by a second
toggle. -/
theorem toggle_toggle_canonical (text : List Char) (s e ps pe : Nat) (u : Bool)
    (hpsdef : (buildIndexMap text).getD s 0 = ps)
    (hpedef : (buildIndexMap text).getD e ps = pe)
    (hcanon : renderSegments (buildSegments text) = text)
    (hstar : '*' ∉ plainChars text)
    (hlt : ps < pe)
    (huni : ∀ p, ps ≤ p → p < pe → boldAt (buildSegments text) p = u) :
    (toggleBoldAtSelection (toggleBoldAtSelection text s e).1
      (toggleBoldAtSelection text s e).2.1 (toggleBoldAtSelection text s e).2.2).1 = text := by
  have hsne : s ≠ e := by
    intro h
    rw [h] at hpsdef
    rw [← hpsdef] at hpedef
    rw [getD_buildIndexMap_self text e] at hpedef
    rw [hpsdef] at hpedef
    omega
  have hrl : concatTexts (buildSegments text) = plainChars text := concatTexts_buildSegments text
  have hchain1 := buildSegments_chain text
  have hne1 := buildSegments_nonempty text
  have hpsle : ps ≤ (plainChars text).length := by
    rw [← hpsdef]
    exact getD_buildIndexMap_le_plain text s 0 (Nat.zero_le _)
  have hpele : pe ≤ (plainChars text).length := by
    rw [← hpedef]
    exact getD_buildIndexMap_le_plain text e ps hpsle
  have hsb : hasUnboldGo (buildSegments text) 0 ps pe = !u :=
    hasUnbold_uniform _ ps pe u hne1 hlt (by rw [hrl]; exact hpele) huni
  have htog1 : toggleBoldAtSelection text s e =
      (renderSegments (updateSegmentsBold (buildSegments text) ps pe (!u)),
        plainIndexToTextIndex
          (renderSegments (updateSegmentsBold (buildSegments text) ps pe (!u))) ps,
        plainIndexToTextIndex
          (renderSegments (updateSegmentsBold (buildSegments text) ps pe (!u))) pe) := by
    simp only [toggleBoldAtSelection, if_neg hsne]
    rw [hpsdef, hpedef, hsb]
  have htog1a : (toggleBoldAtSelection text s e).1 =
      renderSegments (updateSegmentsBold (buildSegments text) ps pe (!u)) := by rw [htog1]
  have htog1b : (toggleBoldAtSelection text s e).2.1 =
      plainIndexToTextIndex
        (renderSegments (updateSegmentsBold (buildSegments text) ps pe (!u))) ps := by
    rw [htog1]
  have htog1c : (toggleBoldAtSelection text s e).2.2 =
      plainIndexToTextIndex
        (renderSegments (updateSegmentsBold (buildSegments text) ps pe (!u))) pe := by
    rw [htog1]
  rw [htog1a, htog1b, htog1c]
  have hchain2 : List.Chain' neBold (updateSegmentsBold (buildSegments text) ps pe (!u)) :=
    updateSegmentsBold_chain _ _ _ _
  have hne2 := updateSegmentsBold_nonempty (buildSegments text) ps pe (!u)
  have hcat2 : concatTexts (updateSegmentsBold (buildSegments text) ps pe (!u)) =
      plainChars text := by
    rw [concatTexts_updateSegmentsBold _ _ _ _ (Nat.le_of_lt hlt), hrl]
  have hsf2 : ∀ x ∈ updateSegmentsBold (buildSegments text) ps pe (!u), '*' ∉ x.text := by
    intro x hx hmem
    have hm := mem_concatTexts_of_mem _ x '*' hx hmem
    rw [hcat2] at hm
    exact hstar hm
  have hparse : buildSegments
      (renderSegments (updateSegmentsBold (buildSegments text) ps pe (!u))) =
      updateSegmentsBold (buildSegments text) ps pe (!u) :=
    buildSegments_renderSegments _ hchain2 hne2 hsf2
  have hplain2 : plainChars
      (renderSegments (updateSegmentsBold (buildSegments text) ps pe (!u))) =
      plainChars text := by
    rw [plainChars_render, hcat2, plainChars_idem]
  have hps2 : (buildIndexMap
        (renderSegments (updateSegmentsBold (buildSegments text) ps pe (!u)))).getD
      (plainIndexToTextIndex
        (renderSegments (updateSegmentsBold (buildSegments text) ps pe (!u))) ps) 0 = ps :=
    getD_buildIndexMap_p2t _ ps 0 (by rw [hplain2]; exact hpsle)
  have hpe2 : (buildIndexMap
        (renderSegments (updateSegmentsBold (buildSegments text) ps pe (!u)))).getD
      (plainIndexToTextIndex
        (renderSegments (updateSegmentsBold (buildSegments text) ps pe (!u))) pe) ps = pe :=
    getD_buildIndexMap_p2t _ pe ps (by rw [hplain2]; exact hpele)
  have hs2e2 : plainIndexToTextIndex
        (renderSegments (updateSegmentsBold (buildSegments text) ps pe (!u))) ps ≠
      plainIndexToTextIndex
        (renderSegments (updateSegmentsBold (buildSegments text) ps pe (!u))) pe :=
    Nat.ne_of_lt (p2t_strict_mono _ ps pe hlt (by rw [hplain2]; exact hpele))
  have hbold2 : ∀ p, ps ≤ p → p < pe →
      boldAt (updateSegmentsBold (buildSegments text) ps pe (!u)) p = !u := by
    intro p h1 h2
    rw [boldAt_updateSegmentsBold _ _ _ _ _ (Nat.le_of_lt hlt),
      if_pos ⟨h1, h2, by rw [hrl]; omega⟩]
  have hsb2 : hasUnboldGo (updateSegmentsBold (buildSegments text) ps pe (!u)) 0 ps pe =
      !(!u) :=
    hasUnbold_uniform _ ps pe (!u) hne2 hlt (by rw [hcat2]; exact hpele) hbold2
  simp only [toggleBoldAtSelection, if_neg hs2e2]
  rw [hparse, hps2, hpe2, hsb2, Bool.not_not]
  have hfinal : updateSegmentsBold (updateSegmentsBold (buildSegments text) ps pe (!u))
      ps pe u = buildSegments text := by
    refine canonical_ext _ _ (updateSegmentsBold_chain _ _ _ _) hchain1
      (updateSegmentsBold_nonempty _ _ _ _) hne1 ?_ ?_
    · rw [concatTexts_updateSegmentsBold _ _ _ _ (Nat.le_of_lt hlt), hcat2, hrl]
    · intro q hq
      rw [concatTexts_updateSegmentsBold _ _ _ _ (Nat.le_of_lt hlt), hcat2] at hq
      rw [boldAt_updateSegmentsBold _ _ _ _ _ (Nat.le_of_lt hlt)]
      by_cases hin : ps ≤ q ∧ q < pe
      · rw [if_pos ⟨hin.1, hin.2, by rw [hcat2]; exact hq⟩, huni q hin.1 hin.2]
      · rw [if_neg (by rintro ⟨a, b2, -⟩; exact hin ⟨a, b2⟩),
          boldAt_updateSegmentsBold _ _ _ _ _ (Nat.le_of_lt hlt),
          if_neg (by rintro ⟨a, b2, -⟩; exact hin ⟨a, b2⟩)]
  rw [hfinal, hcanon]

/-- Claim C1 (amended): `toggleBoldAtSelection` is an involution on its
invariant domain — canonical storage (`renderSegments (buildSegments text)
= text`) whose logical text has no literal star, with a selection whose
plain projection is a non-empty range of uniform boldness; there the
second application restores the original text exactly. -/
theorem C1_amended (text : List Char) (s e : Nat)
    (hcanon : renderSegments (buildSegments text) = text)
    (hstar : '*' ∉ plainChars text)
    (hlt : (buildIndexMap text).getD s 0 <
      (buildIndexMap text).getD e ((buildIndexMap text).getD s 0))
    (huni : ∀ p, (buildIndexMap text).getD s 0 ≤ p →
        p < (buildIndexMap text).getD e ((buildIndexMap text).getD s 0) →
        boldAt (buildSegments text) p =
          boldAt (buildSegments text) ((buildIndexMap text).getD s 0)) :
    (toggleBoldAtSelection (toggleBoldAtSelection text s e).1
      (toggleBoldAtSelection text s e).2.1 (toggleBoldAtSelection text s e).2.2).1 = text :=
  toggle_toggle_canonical text s e _ _ _ rfl rfl hcanon hstar hlt huni

/-- Witness for the amended C1 at `"ab"` with selection `[0, 1]`:
`"ab" → "**a**b" → "ab"`. -/
theorem C1_amended_witness :
    renderSegments (buildSegments "ab".data) = "ab".data ∧
    '*' ∉ plainChars "ab".data ∧
    (buildIndexMap "ab".data).getD 0 0 <
      (buildIndexMap "ab".data).getD 1 ((buildIndexMap "ab".data).getD 0 0) ∧
    (∀ p, (buildIndexMap "ab".data).getD 0 0 ≤ p →
        p < (buildIndexMap "ab".data).getD 1 ((buildIndexMap "ab".data).getD 0 0) →
        boldAt (buildSegments "ab".data) p =
          boldAt (buildSegments "ab".data) ((buildIndexMap "ab".data).getD 0 0)) ∧
    (toggleBoldAtSelection (toggleBoldAtSelection "ab".data 0 1).1
      (toggleBoldAtSelection "ab".data 0 1).2.1
      (toggleBoldAtSelection "ab".data 0 1).2.2).1 = "ab".data := by
  have huni : ∀ p, (buildIndexMap "ab".data).getD 0 0 ≤ p →
      p < (buildIndexMap "ab".data).getD 1 ((buildIndexMap "ab".data).getD 0 0) →
      boldAt (buildSegments "ab".data) p =
        boldAt (buildSegments "ab".data) ((buildIndexMap "ab".data).getD 0 0) := by
    intro p h1 h2
    have he : (buildIndexMap "ab".data).getD 1 ((buildIndexMap "ab".data).getD 0 0) = 1 := by
      decide
    rw [he] at h2
    have hp : p = 0 := by omega
    rw [hp]
    decide
  exact ⟨by decide, by decide, by decide, huni,
    C1_amended "ab".data 0 1 (by decide) (by decide) (by decide) huni⟩

end TextCut
